import Mathlib

/-!
Verification of the awesomeyaml configuration engine against its
natural-language specification.

The definitions below are a shallow embedding, translated from the Python
sources of the repository:
  * `awesomeyaml/nodes/node_path.py`   — path split/join,
  * `awesomeyaml/nodes/node.py`        — flags and their effective values,
  * `awesomeyaml/nodes/composed.py`    — implicit-flag propagation, traversal,
                                         `nested_merge`,
  * `awesomeyaml/nodes/dict.py`, `awesomeyaml/nodes/list.py` — child access
    and per-kind behaviour,
  * `awesomeyaml/builder.py`           — `Builder.flatten`,
  * `awesomeyaml/config.py`            — `Config.check_missing`,
  * `awesomeyaml/eval_context.py`, `awesomeyaml/nodes/xref.py` — evaluation.

Python recursion over trees is embedded with an explicit `fuel : Nat`
argument (structural recursion on the fuel) so that every definition stays
executable by the kernel; every theorem below either holds for all fuel or
exhibits a concrete sufficient fuel.
-/

namespace Awesomeyaml

/-! ## Path addressing (`awesomeyaml/nodes/node_path.py`)

A path component is a dict key (string) or a list index (int)
(`NodePath`).  `join_path` renders a component list; `split_path` tokenizes
a path string with `_path_component_regex` and validates that the matches
tile the whole string (any gap or bad suffix raises `ValueError`, embedded
as `none`).  The regex alternatives are: an identifier `[a-zA-Z0-9_]+` at
the start or after a dot; a bracketed possibly-negative integer; a dot that
is not at the start, not at the end and not followed by `.` or `[`.
The tokenizer below is that regex turned into a character automaton. -/

inductive PathComp where
  | str (s : String)
  | idx (n : Int)
deriving DecidableEq, Repr

/-- `[a-zA-Z0-9_]` — the identifier alphabet of `_path_component_regex`. -/
def isWordChar (c : Char) : Bool := c.isAlphanum || c == '_'

/-- One decimal digit character (`0 ≤ d ≤ 9`; larger inputs are clamped but
never produced). -/
def dChar : Nat → Char
  | 0 => '0' | 1 => '1' | 2 => '2' | 3 => '3' | 4 => '4'
  | 5 => '5' | 6 => '6' | 7 => '7' | 8 => '8' | _ => '9'

/-- Decimal rendering of a natural number, as Python's `str`/f-string
formatting produces it (no leading zeros, most significant digit first).
The fuel argument makes the recursion structural; `n + 1` is always
enough since `n / 10 < n` for `n ≥ 10`. -/
def natCharsAux : Nat → Nat → List Char → List Char
  | 0, _, acc => acc
  | f + 1, n, acc =>
    if n < 10 then dChar n :: acc
    else natCharsAux f (n / 10) (dChar (n % 10) :: acc)

def natChars (n : Nat) : List Char := natCharsAux (n + 1) n []

/-- Decimal rendering of an integer (Python `f'{childname}'`). -/
def intChars (n : Int) : List Char :=
  if n < 0 then '-' :: natChars n.natAbs else natChars n.natAbs

/-- `ComposedNode._get_child_accessor`: an int key renders as `[n]`, a string
key renders with a leading dot unless it is at the beginning. -/
def getChildAccessor (c : PathComp) (myname : String) : String :=
  match c with
  | .idx n => "[" ++ String.mk (intChars n) ++ "]"
  | .str s => (if myname ≠ "" then "." else "") ++ s

/-- `NodePath.join_path`. -/
def joinPath (p : List PathComp) : String :=
  p.foldl (fun ret c => ret ++ getChildAccessor c ret) ""

/-- Numeric value of a list of decimal digit characters. -/
def digitVal (c : Char) : Nat := c.toNat - 48

def digitsVal (ds : List Char) : Nat :=
  ds.foldl (fun a c => a * 10 + digitVal c) 0

/-- Tokenizer state for `split_path`:
  * `start`        — at the very beginning of the string,
  * `afterDotPend` — a dot was just consumed; its regex lookahead demands a
                     following identifier character,
  * `afterTok`     — a component just ended; only `.` or `[` may follow,
  * `inWord`       — inside an identifier, `acc` holds its characters so far,
  * `bracketStart` — just after `[`,
  * `bracketDigits`— inside `[...]`, `neg` records a leading `-`, `acc` holds
                     the digits so far. -/
inductive SplitSt where
  | start
  | afterDotPend
  | afterTok
  | inWord (acc : List Char)
  | bracketStart
  | bracketDigits (neg : Bool) (acc : List Char)
deriving DecidableEq, Repr

/-- `NodePath.split_path` (with `validate=True`) as a character automaton:
a result of `none` is the `ValueError('Invalid path: ...')` raised when the
regex matches do not tile the input. -/
def splitAux : SplitSt → List Char → Option (List PathComp)
  | .start, [] => some []
  | .afterTok, [] => some []
  | .inWord acc, [] => some [.str (String.mk acc)]
  | .afterDotPend, [] => none
  | .bracketStart, [] => none
  | .bracketDigits _ _, [] => none
  | .start, c :: rest =>
    if isWordChar c then splitAux (.inWord [c]) rest
    else if c = '[' then splitAux .bracketStart rest
    else none
  | .afterDotPend, c :: rest =>
    if isWordChar c then splitAux (.inWord [c]) rest
    else none
  | .afterTok, c :: rest =>
    if c = '.' then splitAux .afterDotPend rest
    else if c = '[' then splitAux .bracketStart rest
    else none
  | .inWord acc, c :: rest =>
    if isWordChar c then splitAux (.inWord (acc ++ [c])) rest
    else if c = '.' then
      (splitAux .afterDotPend rest).map (PathComp.str (String.mk acc) :: ·)
    else if c = '[' then
      (splitAux .bracketStart rest).map (PathComp.str (String.mk acc) :: ·)
    else none
  | .bracketStart, c :: rest =>
    if c = '-' then splitAux (.bracketDigits true []) rest
    else if c.isDigit then splitAux (.bracketDigits false [c]) rest
    else none
  | .bracketDigits neg acc, c :: rest =>
    if c.isDigit then splitAux (.bracketDigits neg (acc ++ [c])) rest
    else if c = ']' then
      if acc.isEmpty then none
      else
        (splitAux .afterTok rest).map
          (PathComp.idx (if neg then -(digitsVal acc : Int) else (digitsVal acc : Int)) :: ·)
    else none

def splitPath (s : String) : Option (List PathComp) := splitAux .start s.data

/-- The component lists whose strings the path grammar can express: every
string component is a non-empty run of `[a-zA-Z0-9_]` characters.  These
are exactly the components named by the claim. -/
def validComp : PathComp → Bool
  | .str s => !s.data.isEmpty && s.data.all isWordChar
  | .idx _ => true

def validComps (p : List PathComp) : Bool := p.all validComp

/-- The characters `join_path` appends for each component after the first
(string components get a leading dot, indices render as `[n]`). -/
def renderRest : List PathComp → List Char
  | [] => []
  | .str s :: t => '.' :: (s.data ++ renderRest t)
  | .idx n :: t => '[' :: (intChars n ++ ']' :: renderRest t)

/-- The characters `join_path` produces for a whole component list (the
first string component has no leading dot because the accumulator is
still empty). -/
def renderFirst : List PathComp → List Char
  | [] => []
  | .str s :: t => s.data ++ renderRest t
  | .idx n :: t => '[' :: (intChars n ++ ']' :: renderRest t)

/-! ## Node model (`awesomeyaml/nodes/node.py`)

A node carries merge-control fields.  `none` embeds Python `None`
("unset"); `_default_safe` is always a concrete bool, captured from the
ambient default at parse time (`True` under `Builder`'s defaults). -/

structure Flags where
  priority : Option Int := none         -- `_priority`
  delete : Option Bool := none          -- `_delete`
  allowNew : Option Bool := none        -- `_allow_new`
  safe : Option Bool := none            -- `_safe`
  implicitDelete : Option Bool := none  -- `_implicit_delete`
  implicitAllowNew : Option Bool := none
  implicitSafe : Option Bool := none
  defaultSafe : Bool := true            -- `_default_safe`
  sourceFile : Option String := none    -- `_source_file`
deriving DecidableEq, Repr

/-- The node kinds exercised by the claims: int scalars (`ConfigScalar`),
`RequiredNode`, `ConfigDict` (ordered children, string or int keys) and
`ConfigList`.  A child key is a `PathComp`, exactly as in `_children`. -/
inductive CNode where
  | scalar (v : Int) (fl : Flags)
  | required (fl : Flags)
  | dict (ch : List (PathComp × CNode)) (fl : Flags)
  | list (ch : List CNode) (fl : Flags)

def CNode.flags : CNode → Flags
  | .scalar _ fl => fl
  | .required fl => fl
  | .dict _ fl => fl
  | .list _ fl => fl

def CNode.withFlags : CNode → Flags → CNode
  | .scalar v _, fl => .scalar v fl
  | .required _, fl => .required fl
  | .dict ch _, fl => .dict ch fl
  | .list ch _, fl => .list ch fl

def CNode.isComposed : CNode → Bool
  | .dict _ _ => true
  | .list _ _ => true
  | _ => false

def CNode.isDict : CNode → Bool
  | .dict _ _ => true
  | _ => false

/-- `ConfigList._default_delete = True`; every other kind inherits
`ConfigNode._default_delete = False`. -/
def CNode.defaultDelete : CNode → Bool
  | .list _ _ => true
  | _ => false

/-- Python truthiness of the node object: a scalar is its int value, a
dict/list is its emptiness, a plain-object node (`RequiredNode`) is truthy. -/
def CNode.truthy : CNode → Bool
  | .scalar v _ => v != 0
  | .required _ => true
  | .dict ch _ => !ch.isEmpty
  | .list ch _ => !ch.isEmpty

/-- `ConfigNode.ayns.priority`: the explicit value or `STANDARD = 0`. -/
def effPriority (n : CNode) : Int := n.flags.priority.getD 0

/-- `ConfigNode.ayns.delete`: explicit, else implicit, else the kind
default. -/
def effDelete (n : CNode) : Bool :=
  match n.flags.delete with
  | some d => d
  | none =>
    match n.flags.implicitDelete with
    | some i => i
    | none => n.defaultDelete

/-- `ConfigNode.ayns.allow_new`: the implicit value if set, else the default
`True` — the node's own explicit `_allow_new` is not consulted. -/
def effAllowNew (n : CNode) : Bool := n.flags.implicitAllowNew.getD true

/-- `ConfigNode.ayns.safe` on a bare flag record:
`notnone_or(_safe, True) and notnone_or(_implicit_safe, True) and
notnone_or(_default_safe, False)` — a conjunction of the three sources. -/
def flagsSafe (fl : Flags) : Bool :=
  (fl.safe.getD true) && (fl.implicitSafe.getD true) && fl.defaultSafe

/-- `ConfigNode.ayns.safe`. -/
def effSafe (n : CNode) : Bool := flagsSafe n.flags

/-- `ConfigNode.ayns.has_priority_over`. -/
def hasPriorityOver (a b : CNode) (ifEqual : Bool) : Bool :=
  if effPriority a = effPriority b then ifEqual
  else decide (effPriority a > effPriority b)

/-! ## Child access (`awesomeyaml/nodes/dict.py`, `list.py`, `composed.py`) -/

/-- `ConfigList._validate_index(index, strict=True)` succeeds iff
`abs(index) ≤ len` and `index ≠ len`. -/
def listIdxStrictOk (len : Nat) (v : Int) : Bool :=
  decide (v.natAbs ≤ len) && (v != len)

/-- The effective list slot of an index: negatives count from the end, then
the result is clamped into `[0, len]` (`min(len, max(0, index))`). -/
def listEffIdx (len : Nat) (v : Int) : Nat :=
  (min (len : Int) (max 0 (if v < 0 then (len : Int) + v else v))).toNat

/-- `ayns.get_child(name, None)`: a dict looks the key up; a list resolves
the index tolerantly (`_get` with `raise_ex=False`: out-of-range and
non-int indices give the default). -/
def getChild : CNode → PathComp → Option CNode
  | .dict ch _, k => (ch.find? (fun e => e.1 == k)).map (·.2)
  | .list ch _, .idx v =>
    if listIdxStrictOk ch.length v then ch.get? (listEffIdx ch.length v) else none
  | _, _ => none

/-- `ayns.has_child` as `get_node`'s `query_fn` uses it: membership in the
`_children` mapping (list keys are `0 .. len-1`). -/
def hasChildStrict : CNode → PathComp → Bool
  | .dict ch _, k => ch.any (fun e => e.1 == k)
  | .list ch _, .idx v => decide (0 ≤ v) && decide (v < (ch.length : Int))
  | _, _ => false

/-- `ayns.get_first_not_missing_node`: walk the path, stopping at the last
node that exists. -/
def getFirstNotMissing : CNode → List PathComp → CNode
  | n, [] => n
  | n, k :: rest =>
    if hasChildStrict n k then
      match getChild n k with
      | some c => getFirstNotMissing c rest
      | none => n
    else n

/-- `other._children.items()` in iteration order (a list's children are
keyed by `0 .. len-1`). -/
def childrenEntries : CNode → List (PathComp × CNode)
  | .dict ch _ => ch
  | .list ch _ => ch.enum.map (fun e => (PathComp.idx (e.1 : Int), e.2))
  | _ => []

/-! ## Implicit-flag propagation (`composed.py`) -/

/-- `ComposedNode._get_child_kwargs`: the `(implicit_delete,
implicit_allow_new, implicit_safe)` keyword values a parent passes to a
child (`notnone_or(_delete, _default_delete or _implicit_delete)` etc.). -/
def childKwargs (parent : CNode) : Option Bool × Option Bool × Option Bool :=
  ( match parent.flags.delete with
    | some d => some d
    | none => if parent.defaultDelete then some true else parent.flags.implicitDelete
  , match parent.flags.allowNew with
    | some a => some a
    | none => parent.flags.implicitAllowNew
  , match parent.flags.safe with
    | some s => some s
    | none => parent.flags.implicitSafe )

/-- The two early-return guards of `_propagate_implicit_values`: nothing to
propagate, or every explicit flag set. -/
def propGuard (fl : Flags) : Bool :=
  (fl.implicitDelete.isNone && fl.implicitAllowNew.isNone && fl.implicitSafe.isNone)
  || (!fl.delete.isNone && !fl.allowNew.isNone && !fl.safe.isNone)

/-- One child update of `_propagate_implicit_values`: each implicit field is
overwritten from the parent when the parent's explicit flag is unset and
the values differ; an implicit `safe = False` on the child is never
overwritten.  The bool records whether anything changed (`fix`). -/
def updFlags (fl cf : Flags) : Flags × Bool :=
  let d := if fl.delete.isNone && cf.implicitDelete != fl.implicitDelete
    then (fl.implicitDelete, true) else (cf.implicitDelete, false)
  let a := if fl.allowNew.isNone && cf.implicitAllowNew != fl.implicitAllowNew
    then (fl.implicitAllowNew, true) else (cf.implicitAllowNew, false)
  let s := if fl.safe.isNone && cf.implicitSafe != fl.implicitSafe
      && cf.implicitSafe != some false
    then (fl.implicitSafe, true) else (cf.implicitSafe, false)
  ({ cf with implicitDelete := d.1, implicitAllowNew := a.1, implicitSafe := s.1 },
   d.2 || a.2 || s.2)

/-- `_propagate_implicit_values`, fuelled on tree depth: update every
child's implicit flags from this node and recurse into a child whenever
something changed there. -/
def propagateF : Nat → CNode → CNode
  | 0, n => n
  | f + 1, n =>
    match n with
    | .scalar v fl => .scalar v fl
    | .required fl => .required fl
    | .dict ch fl =>
      if propGuard fl then .dict ch fl
      else
        .dict (ch.map (fun e =>
          (e.1,
            let p := updFlags fl e.2.flags
            if p.2 then propagateF f (e.2.withFlags p.1) else e.2.withFlags p.1))) fl
    | .list ch fl =>
      if propGuard fl then .list ch fl
      else
        .list (ch.map (fun c =>
          let p := updFlags fl c.flags
          if p.2 then propagateF f (c.withFlags p.1) else c.withFlags p.1)) fl

/-- `ConfigNode(value, **parent._get_child_kwargs())` on an existing node:
the meta-constructor overwrites the child's implicit fields with the
parent's kwargs (skipping `implicit_safe` when the child's is already
explicitly `False`) and then propagates them down. -/
def applyParentKwargs (f : Nat) (parent child : CNode) : CNode :=
  let kw := childKwargs parent
  let cf := child.flags
  let nf := { cf with
    implicitDelete := kw.1
    implicitAllowNew := kw.2.1
    implicitSafe := if cf.implicitSafe == some false then cf.implicitSafe else kw.2.2 }
  propagateF f (child.withFlags nf)

/-! ## Mutating child operations (`dict.py` / `list.py` / `composed.py`) -/

/-- Python `dict.__setitem__`: replace in place when the key exists,
append otherwise. -/
def setChildD (ch : List (PathComp × CNode)) (k : PathComp) (v : CNode) :
    List (PathComp × CNode) :=
  if ch.any (fun e => e.1 == k) then ch.map (fun e => if e.1 == k then (k, v) else e)
  else ch ++ [(k, v)]

/-- `ayns.set_child`: the child is re-wrapped with the parent's implicit
kwargs (and propagated), then stored.  A dict stores under the key; a list
resolves the index non-strictly (`_set` with `strict=False`: clamped, and
appended when the slot is one past the end).  `none` is the `TypeError`
raised by `_validate_index` for a non-int list index. -/
def setChild (f : Nat) (self : CNode) (k : PathComp) (v : CNode) : Option CNode :=
  match self with
  | .dict ch fl => some (.dict (setChildD ch k (applyParentKwargs f self v)) fl)
  | .list ch fl =>
    match k with
    | .idx kv =>
      let i := listEffIdx ch.length kv
      let v2 := applyParentKwargs f self v
      if i == ch.length then some (.list (ch ++ [v2]) fl)
      else some (.list (ch.set i v2) fl)
    | .str _ => none
  | _ => none

/-- `ayns.remove_child`: a dict pops the key; a list (`_del`) validates the
index strictly, shifts the tail left and drops the last slot — i.e. erases
the element at the effective index. -/
def removeChild (self : CNode) (k : PathComp) : CNode :=
  match self with
  | .dict ch fl => .dict (ch.filter (fun e => !(e.1 == k))) fl
  | .list ch fl =>
    match k with
    | .idx kv =>
      if listIdxStrictOk ch.length kv then .list (ch.eraseIdx (listEffIdx ch.length kv)) fl
      else .list ch fl
    | .str _ => .list ch fl
  | _ => self

/-- Writing back a child that was mutated in place through the shared
reference (no re-wrapping, no propagation). -/
def replaceChildRaw (self : CNode) (k : PathComp) (v : CNode) : CNode :=
  match self with
  | .dict ch fl => .dict (ch.map (fun e => if e.1 == k then (e.1, v) else e)) fl
  | .list ch fl =>
    match k with
    | .idx kv =>
      if listIdxStrictOk ch.length kv then .list (ch.set (listEffIdx ch.length kv) v) fl
      else .list ch fl
    | .str _ => .list ch fl
  | _ => self

/-! ## Traversal (`composed.py`) -/

/-- `ayns.nodes_with_paths` (recursive, duplicates allowed): optionally the
node itself, then depth-first: a leaf child is yielded, a composed child is
traversed with `include_self=True`. -/
def nodesWithPathsF : Nat → List PathComp → CNode → Bool → List (List PathComp × CNode)
  | 0, _, _, _ => []
  | f + 1, pfx, n, includeSelf =>
    let selfPart := if includeSelf then [(pfx, n)] else []
    if n.isComposed then
      selfPart ++ (childrenEntries n).flatMap (fun e =>
        if e.2.isComposed then nodesWithPathsF f (pfx ++ [e.1]) e.2 true
        else [(pfx ++ [e.1], e.2)])
    else selfPart

/-- The error raised by `_require_all_new`: the offending path and that
node's source file. -/
structure ReqErr where
  path : List PathComp
  sourceFile : Option String
deriving DecidableEq, Repr

def pathMem (p : List PathComp) (l : List (List PathComp)) : Bool :=
  l.any (fun q => q == p)

/-- `ayns._require_all_new`: for a composed node, scan all reachable nodes
(optionally including itself) and fail on the first whose effective
`allow_new` is false and whose path is not in `exceptions`; a leaf checks
only itself, and only when `include_self` is true. -/
def pathExcluded (exceptions : Option (List (List PathComp))) (p : List PathComp) : Bool :=
  match exceptions with
  | none => false
  | some exc => pathMem p exc

def requireAllNewF (f : Nat) (n : CNode) (path : List PathComp)
    (exceptions : Option (List (List PathComp))) (includeSelf : Bool) : Option ReqErr :=
  if n.isComposed then
    (nodesWithPathsF f path n includeSelf).findSome? (fun e =>
      if !effAllowNew e.2 && !pathExcluded exceptions e.1 then
        some ⟨e.1, e.2.flags.sourceFile⟩
      else none)
  else
    if !includeSelf then none
    else if !effAllowNew n && !pathExcluded exceptions path then
      some ⟨path, n.flags.sourceFile⟩
    else none

/-- Per-child result record used by the embedding of `filter_nodes`. -/
structure FilterStep where
  key : PathComp
  node : CNode
  keep : Bool
  removedSub : List (List PathComp)
  cpath : List PathComp

/-- `ayns.filter_nodes(condition, prefix, removed)`: every child is tested;
composed children are filtered recursively and kept when the condition
holds or they remain non-empty; dropped children's paths are recorded
(descendants' removals included). -/
def filterNodesF : Nat → (List PathComp → CNode → Bool) → List PathComp → CNode →
    CNode × List (List PathComp)
  | 0, _, _, n => (n, [])
  | f + 1, cond, pfx, n =>
    match n with
    | .dict ch fl =>
      let steps : List FilterStep := ch.map (fun e =>
        let cpath := pfx ++ [e.1]
        let pr := if e.2.isComposed then filterNodesF f cond cpath e.2 else (e.2, [])
        { key := e.1, node := pr.1
          keep := cond cpath e.2 || (e.2.isComposed && pr.1.truthy)
          removedSub := pr.2, cpath := cpath })
      (.dict ((steps.filter (·.keep)).map (fun r => (r.key, r.node))) fl,
        steps.flatMap (·.removedSub) ++ ((steps.filter (fun r => !r.keep)).map (·.cpath)))
    | .list ch fl =>
      let steps : List FilterStep := ch.enum.map (fun e =>
        let cpath := pfx ++ [PathComp.idx (e.1 : Int)]
        let pr := if e.2.isComposed then filterNodesF f cond cpath e.2 else (e.2, [])
        { key := PathComp.idx (e.1 : Int), node := pr.1
          keep := cond cpath e.2 || (e.2.isComposed && pr.1.truthy)
          removedSub := pr.2, cpath := cpath })
      (.list ((steps.filter (·.keep)).map (·.node)) fl,
        steps.flatMap (·.removedSub) ++ ((steps.filter (fun r => !r.keep)).map (·.cpath)))
    | _ => (n, [])

/-! ## The merge engine (`composed.py` `nested_merge`, `builder.py`) -/

inductive MergeErr where
  | requireNew (path : List PathComp) (sourceFile : Option String)
  | notAllDicts
  | noStages
  | caught
  | fuelOut
  | invalidIndices (path : List PathComp) (keys : List Int)
deriving DecidableEq, Repr

/-- The outcome of `nested_merge`: a result node (flagging whether it is
the `other` object, for the caller's `possibly_new_child is not child`
test), an escaping `TypeError`/`AttributeError` together with the
possibly-mutated `self`, or a raised error. -/
inductive NMOut where
  | ok (isOther : Bool) (result : CNode)
  | attrErr (selfAfter : CNode)
  | err (e : MergeErr)

/-- State threaded through the `for key, value in other._children.items()`
loop of `nested_merge`. -/
inductive LoopSt where
  | cont (self : CNode)
  | raised (e : MergeErr)
  | attr (selfAfter : CNode)

/-- The `merge = False` fallback branch of `nested_merge`'s child loop
(reached when the recursive merge raised `TypeError`/`AttributeError`):
check `allow_new` of `value`'s descendants, then let `value` win the
priority tie-break (with the explicit-delete-and-falsy removal case). -/
def fallbackMerge (f : Nat) (selfAcc : CNode) (key : PathComp) (child value : CNode)
    (pfx : List PathComp) : LoopSt :=
  match requireAllNewF f value (pfx ++ [key]) none false with
  | some er => .raised (.requireNew er.path er.sourceFile)
  | none =>
    if hasPriorityOver value child true then
      if !value.truthy && value.flags.delete == some true then
        .cont (removeChild selfAcc key)
      else
        match setChild f selfAcc key value with
        | some s2 => .cont s2
        | none => .attr selfAcc
    else .cont selfAcc

/-- `ComposedNode.ayns.nested_merge(self, other, prefix)`, fuelled.

Step 1 (`other.ayns.delete`): filter `self` with `maybe_keep`, and when it
ends up empty and `other` wins the tie, check `allow_new` over `other`
(with the removed destination paths and `prefix` itself excepted) and
return `other`.  With a non-composed `other`, `maybe_keep`'s call to
`other.ayns.get_first_not_missing_node` raises `AttributeError` on the
first child scanned, so a non-empty `self` escapes unchanged.

Step 2: for each child of `other`: adopt missing children after a full
`_require_all_new` check; recursively merge composed existing children
(catching `TypeError`/`AttributeError` into the fallback branch); leaf
children go to the fallback directly.

Step 3: the winner's `priority`/`delete`/`implicit_delete` are copied onto
`self` when `other` wins the tie. -/
def nestedMergeF : Nat → CNode → CNode → List PathComp → NMOut
  | 0, _, _, _ => .err .fuelOut
  | f + 1, self0, other, pfx =>
    let step1 : Sum CNode NMOut :=
      if effDelete other then
        if !other.isComposed then
          if self0.truthy then Sum.inr (.attrErr self0)
          else if hasPriorityOver other self0 true then
            match requireAllNewF f other pfx (some [pfx]) true with
            | some e => Sum.inr (.err (.requireNew e.path e.sourceFile))
            | none => Sum.inr (.ok true other)
          else Sum.inr (.attrErr self0)
        else
          let fr := filterNodesF f (fun p node =>
            hasPriorityOver node (getFirstNotMissing other p) false) pfx self0
          if !fr.1.truthy && hasPriorityOver other fr.1 true then
            match requireAllNewF f other pfx (some (pfx :: fr.2)) true with
            | some e => Sum.inr (.err (.requireNew e.path e.sourceFile))
            | none => Sum.inr (.ok true other)
          else Sum.inl fr.1
      else Sum.inl self0
    match step1 with
    | Sum.inr out => out
    | Sum.inl self1 =>
      if !other.isComposed then .attrErr self1
      else
        let loopRes := (childrenEntries other).foldl (fun (st : LoopSt) e =>
          match st with
          | .raised er => .raised er
          | .attr s => .attr s
          | .cont selfAcc =>
            match getChild selfAcc e.1 with
            | none =>
              match requireAllNewF f e.2 (pfx ++ [e.1]) none true with
              | some er => .raised (.requireNew er.path er.sourceFile)
              | none =>
                match setChild f selfAcc e.1 e.2 with
                | some s2 => .cont s2
                | none => .attr selfAcc
            | some child =>
              if child.isComposed then
                match nestedMergeF f child e.2 (pfx ++ [e.1]) with
                | .err er => .raised er
                | .attrErr childAfter =>
                  fallbackMerge f (replaceChildRaw selfAcc e.1 childAfter) e.1
                    childAfter e.2 pfx
                | .ok isOther newChild =>
                  if !newChild.truthy && !hasPriorityOver newChild e.2 false
                      && e.2.flags.delete == some true then
                    .cont (removeChild selfAcc e.1)
                  else if isOther then
                    match setChild f selfAcc e.1 newChild with
                    | some s2 => .cont s2
                    | none => .attr selfAcc
                  else .cont (replaceChildRaw selfAcc e.1 newChild)
              else fallbackMerge f selfAcc e.1 child e.2 pfx)
          (LoopSt.cont self1)
        match loopRes with
        | .raised er => .err er
        | .attr s => .attrErr s
        | .cont selfF =>
          let fl := selfF.flags
          let newFl :=
            if hasPriorityOver other selfF true then
              { fl with priority := other.flags.priority
                        delete := other.flags.delete
                        implicitDelete := other.flags.implicitDelete }
            else fl
          .ok false (selfF.withFlags newFl)

/-- `on_premerge_impl` of every node kind in this model returns the node
itself (append/extend/prev/stream premerge hooks are outside the model). -/
def premergeId (n : CNode) : CNode := n

/-- `ComposedNode.ayns.merge`: premerge `other` against `self`, then
`nested_merge` with an empty prefix.  An exception escaping uncaught is
`MergeErr.caught`. -/
def mergeTop (f : Nat) (root other : CNode) : Except MergeErr CNode :=
  match nestedMergeF f root (premergeId other) [] with
  | .ok _ r => .ok r
  | .attrErr _ => .error .caught
  | .err e => .error e

/-- `Builder.flatten`: every stage must be a dict; stage 0 is premerged
against `None` and checked with `_require_all_new([])`; then the stages are
folded left-to-right through `merge`. -/
def flattenF (f : Nat) (stages : List CNode) : Except MergeErr CNode :=
  if !(stages.all CNode.isDict) then .error .notAllDicts
  else
    match stages with
    | [] => .error .noStages
    | s0 :: rest =>
      match requireAllNewF f (premergeId s0) [] none true with
      | some er => .error (.requireNew er.path er.sourceFile)
      | none => rest.foldlM (fun root s => mergeTop f root s) s0

/-! ## Plain-value evaluation of a tree

`ConfigDict/ConfigList.ayns.on_evaluate_impl` evaluate children
recursively into plain containers; a scalar evaluates to its native value;
`RequiredNode.ayns.on_evaluate` raises. -/

inductive PValue where
  | int (v : Int)
  | dict (ch : List (PathComp × PValue))
  | list (ch : List PValue)

def evalTreeF : Nat → CNode → Option PValue
  | 0, _ => none
  | f + 1, n =>
    match n with
    | .scalar v _ => some (.int v)
    | .required _ => none
    | .dict ch _ =>
      (ch.foldr (fun e acc =>
        match evalTreeF f e.2, acc with
        | some v, some l => some ((e.1, v) :: l)
        | _, _ => none) (some [])).map PValue.dict
    | .list ch _ =>
      (ch.foldr (fun c acc =>
        match evalTreeF f c, acc with
        | some v, some l => some (v :: l)
        | _, _ => none) (some [])).map PValue.list

/-- Flatten a list of stages and evaluate the result. -/
def flattenEvalF (f : Nat) (stages : List CNode) : Except MergeErr PValue :=
  match flattenF f stages with
  | .error e => .error e
  | .ok r =>
    match evalTreeF f r with
    | some v => .ok v
    | none => .error .fuelOut

/-! ## The required-node gate (`config.py`) -/

/-- `Config.check_missing`: the paths of every `RequiredNode` in the tree,
in `nodes_with_paths` order. -/
def requiredPathsF (f : Nat) (t : CNode) : List (List PathComp) :=
  (nodesWithPathsF f [] t false).filterMap (fun e =>
    match e.2 with
    | .required _ => some e.1
    | _ => none)

/-- `Config.__init__` on a `ConfigDict`: a non-empty dict is checked with
`check_missing` BEFORE any evaluation — a non-empty list of required paths
raises one `ValueError` listing all of them; otherwise (a deep copy of) the
tree is evaluated.  An empty dict evaluates to the empty mapping. -/
def configInitF (f : Nat) (t : CNode) : Except (List (List PathComp)) (Option PValue) :=
  if t.truthy then
    match requiredPathsF f t with
    | [] => .ok (evalTreeF f t)
    | m => .error m
  else .ok (some (.dict []))

/-! ## `ConfigList.ayns.on_merge_impl` (`list.py`)

This hook is dispatched through `ConfigNode.ayns.merge → on_merge`; the
`nested_merge` flow above never calls it. -/

/-- `keep_if_exists` (`list.py`): keep nodes that are not effectively
deleted or that win the tie against the destination's first-not-missing
node. -/
def keepIfExistsCond (self : CNode) : List PathComp → CNode → Bool :=
  fun path node =>
    !effDelete node || hasPriorityOver node (getFirstNotMissing self path) true

/-- The flag effects of `ConfigNode._replace_other` (metadata is outside
the model): the loser's explicit `safe` is conjoined in, and its
`_default_safe` overwrites. -/
def replaceOtherFlags (selfFl otherFl : Flags) : Flags :=
  { selfFl with
    safe := match otherFl.safe with
      | none => selfFl.safe
      | some s => some ((selfFl.safe.getD true) && s)
    defaultSafe := otherFl.defaultSafe }

/-- `ConfigNode.ayns.on_merge_impl`: the higher-priority node survives
(ties favour `self`), absorbing the other's flag effects. -/
def nodeOnMergeImpl (self other : CNode) : CNode :=
  if hasPriorityOver self other false then
    self.withFlags (replaceOtherFlags self.flags other.flags)
  else other.withFlags (replaceOtherFlags other.flags self.flags)

/-- `ConfigList.ayns.on_merge_impl(self, prefix, other)`: when `other` is a
dict, every key is validated against the list's indices — an out-of-range
int key is collected and reported in one `MergeError` naming the offending
keys (a non-int key makes `_validate_index` raise `TypeError`, which the
`except IndexError` does not catch); otherwise composed `other`s are
filtered with `keep_if_exists` and the generic tie-break decides. -/
def listOnMergeImpl (f : Nat) (self other : CNode) (pfx : List PathComp) :
    Except MergeErr CNode :=
  match self with
  | .list ch fl =>
    match other with
    | .dict och _ =>
      if och.any (fun e => match e.1 with | .str _ => true | .idx _ => false) then
        .error .caught
      else
        let missing := och.filterMap (fun e =>
          match e.1 with
          | .idx v => if listIdxStrictOk ch.length v then none else some v
          | .str _ => none)
        if !missing.isEmpty then .error (.invalidIndices pfx missing)
        else
          let other2 := (filterNodesF f (keepIfExistsCond (.list ch fl)) [] other).1
          .ok (nodeOnMergeImpl (.list ch fl) other2)
    | _ =>
      let other2 :=
        if other.isComposed then (filterNodesF f (keepIfExistsCond (.list ch fl)) [] other).1
        else other
      .ok (nodeOnMergeImpl (.list ch fl) other2)
  | _ => .error .caught

/-- The resolution order the specification claims for all three flags:
the explicit value if set, else the inherited implicit value, else the
default. -/
def specResolve (explicit implicit : Option Bool) (dflt : Bool) : Bool :=
  explicit.getD (implicit.getD dflt)

/-- A node `m` is reachable from `n` along the child-key path `p`
(children exactly as `_children.items()` enumerates them). -/
inductive Reaches : CNode → List PathComp → CNode → Prop where
  | refl (n : CNode) : Reaches n [] n
  | step {n c m : CNode} {k : PathComp} {q : List PathComp} :
      (k, c) ∈ childrenEntries n → Reaches c q m → Reaches n (k :: q) m

/-- Flag fields of a node that propagation must leave intact: the
explicit `delete`/`allow_new`/`safe`, the captured `_default_safe`, and
an implicit `safe = False` once set. -/
def FlagsPres (a b : Flags) : Prop :=
  a.delete = b.delete ∧ a.allowNew = b.allowNew ∧ a.safe = b.safe ∧
  a.defaultSafe = b.defaultSafe ∧ (b.implicitSafe = some false → a.implicitSafe = some false)

/-! ## The evaluation context (`eval_context.py`, `xref.py`)

Object identity is what `_eval_cache_id` keys on, so this part of the
embedding stores nodes in an arena: every node object has an id (`Nat`)
and composed nodes hold the ids of their children — the same child id
under two keys is one shared object.  `effect` stands for a node kind
whose `on_evaluate_impl` runs custom logic with an observable side effect
(e.g. an `!eval` node); running it is recorded in an append-only log. -/

inductive ANodeF where
  | scalar (v : Int) (fl : Flags)
  | effect (v : Int) (fl : Flags)
  | adict (ch : List (PathComp × Nat)) (fl : Flags)
  | axref (target : String) (fl : Flags)
deriving DecidableEq, Repr

def ANodeF.flags : ANodeF → Flags
  | .scalar _ fl => fl
  | .effect _ fl => fl
  | .adict _ fl => fl
  | .axref _ fl => fl

structure Arena where
  nodes : List (Nat × ANodeF)
deriving DecidableEq, Repr

def Arena.get (a : Arena) (nid : Nat) : Option ANodeF :=
  (a.nodes.find? (fun e => e.1 == nid)).map (·.2)

/-- The mutable state of an `EvalContext` during `evaluate`: the node tree
itself (the only shared structure evaluation reads), the two memo tables
(`_eval_cache` keyed by stringified path, `_eval_cache_id` keyed by node
identity) and the log of executed custom hooks. -/
structure ESt where
  arena : Arena
  cachePath : List (String × PValue)
  cacheId : List (Nat × PValue)
  log : List Nat

def lookupPV (l : List (Nat × PValue)) (k : Nat) : Option PValue :=
  (l.find? (fun e => e.1 == k)).map (·.2)

def lookupStr (l : List (String × PValue)) (k : String) : Option PValue :=
  (l.find? (fun e => e.1 == k)).map (·.2)

/-- `cfg.ayns.get_node` on the arena: walk dict children by key. -/
def arenaWalk (a : Arena) : Nat → List PathComp → Option Nat
  | nid, [] => some nid
  | nid, k :: rest =>
    match a.get nid with
    | some (.adict ch _) =>
      match (ch.find? (fun e => e.1 == k)).map (·.2) with
      | some cid => arenaWalk a cid rest
      | none => none
    | _ => none

/-- `EvalContext.get_node(path)`: an evaluated value when the stringified
path is in `_eval_cache`, else the config-tree node; `none` is the
`KeyError` for a missing node (an unparsable path string also fails). -/
inductive CtxNode where
  | cached (v : PValue)
  | node (nid : Nat) (nf : ANodeF)

def ctxGetNode (st : ESt) (root : Nat) (s : String) : Option CtxNode :=
  match splitPath s with
  | none => none
  | some comps =>
    match lookupStr st.cachePath (joinPath comps) with
    | some v => some (.cached v)
    | none =>
      match arenaWalk st.arena root comps with
      | some nid => (st.arena.get nid).map (fun nf => CtxNode.node nid nf)
      | none => none

/-- Outcome of `XRefNode.ayns.on_evaluate_impl`'s `while` loop: the final
non-reference node (to be evaluated at `chain[-1]`), an already-evaluated
value from `_eval_cache`, the `ValueError` for a missing reference (with
the visited chain), or fuel exhaustion — the loop itself has no cycle
check. -/
inductive XRes where
  | final (nid : Nat) (nf : ANodeF) (chain : List String)
  | cachedVal (v : PValue) (chain : List String)
  | missing (target : String) (chain : List String)
  | fuelOut

/-- The `while isinstance(curr, XRefNode)` loop: look the target up via
`ctx.get_node`, extend the chain and continue while the result is again a
reference. -/
def xrefFollowF : Nat → ESt → Nat → Nat → ANodeF → List String → XRes
  | 0, _, _, _, _, _ => .fuelOut
  | f + 1, st, root, currId, curr, chain =>
    match curr with
    | .axref t _ =>
      match ctxGetNode st root t with
      | none => .missing t chain
      | some (.cached v) => .cachedVal v (chain ++ [t])
      | some (.node nid nf) => xrefFollowF f st root nid nf (chain ++ [t])
    | _ => .final currId curr chain

/-- Result of `EvalContext.evaluate_node`. -/
inductive ERes where
  | ok (v : PValue) (st : ESt)
  | errMissing (target : String) (chain : List String)
  | errNotSafe (path : List PathComp)
  | badRef (nid : Nat)
  | fuelOut

/-- Accumulator of the child-evaluation fold of
`ConfigDict.ayns.on_evaluate_impl`. -/
inductive DRes where
  | cont (vs : List (PathComp × PValue)) (st : ESt)
  | halt (r : ERes)

/-- `EvalContext.evaluate_node(cfgobj, prefix)`:
1. when a `require_all_safe` scope is active, an effectively unsafe node
   aborts;
2. a node already evaluated (by identity, `_eval_cache_id`) returns the
   cached plain value immediately, with nothing re-run;
3. otherwise dispatch `on_evaluate`: scalars unwrap; an `effect` node runs
   its custom logic (logged) and yields its value; a dict evaluates its
   children in order (keys are plain values, returned unchanged by
   `evaluate_node`); a reference node follows its chain and evaluates the
   final target at `chain[-1]`;
4. the result is stored in both memo tables.
The node tree (`st.arena`) is only ever read. -/
def evaluateNodeF : Nat → Nat → Nat → ANodeF → Bool → List PathComp → ESt → ERes
  | 0, _, _, _, _, _, _ => .fuelOut
  | f + 1, root, nid, nf, ras, path, st =>
    if ras && !flagsSafe nf.flags then .errNotSafe path
    else
      match lookupPV st.cacheId nid with
      | some v => .ok v st
      | none =>
        let dispatched : ERes :=
          match nf with
          | .scalar v _ => .ok (.int v) st
          | .effect v _ => .ok (.int v) { st with log := st.log ++ [nid] }
          | .adict ch _ =>
            let folded := ch.foldl (fun (acc : DRes) e =>
              match acc with
              | .halt r => .halt r
              | .cont vs st1 =>
                match st1.arena.get e.2 with
                | none => .halt (.badRef e.2)
                | some cnf =>
                  match evaluateNodeF f root e.2 cnf ras (path ++ [e.1]) st1 with
                  | .ok v st2 => .cont (vs ++ [(e.1, v)]) st2
                  | r => .halt r) (DRes.cont [] st)
            match folded with
            | .halt r => r
            | .cont vs st1 => .ok (.dict vs) st1
          | .axref _ _ =>
            match xrefFollowF f st root nid nf [joinPath path] with
            | .fuelOut => .fuelOut
            | .missing t chain => .errMissing t chain
            | .cachedVal v _ => .ok v st
            | .final tid tnf chain =>
              -- `evaluate_node(curr, prefix=chain[-1])`; the chain strings
              -- are paths `split_path` accepts in every modelled run
              let lp := (splitPath (chain.getLastD "")).getD []
              evaluateNodeF f root tid tnf ras lp st
        match dispatched with
        | .ok v st1 =>
          .ok v { st1 with
            cachePath := (joinPath path, v) :: st1.cachePath
            cacheId := (nid, v) :: st1.cacheId }
        | r => r

/-- `EvalContext.evaluate(config_dict)`: fresh memo tables, then
`evaluate_node` on the root with an empty prefix. -/
def evaluateF (f : Nat) (a : Arena) (root : Nat) (rootNf : ANodeF) : ERes :=
  evaluateNodeF f root root rootNf false [] ⟨a, [], [], []⟩

/-- The well-formedness invariant tying the hook log to the identity
cache: no hook ran twice, and every node whose hook ran is memoized. -/
def WfLog (st : ESt) : Prop :=
  st.log.Nodup ∧ ∀ m ∈ st.log, (lookupPV st.cacheId m).isSome = true

/-- Shorthand: a flagless int scalar node, as produced for a plain YAML
int in a list literal. -/
def scf (v : Int) : CNode := .scalar v {}

/-- The identity cache only grows: whatever was memoized before a call
is still memoized after it. -/
def CacheMono (a b : ESt) : Prop :=
  ∀ m : Nat, (lookupPV a.cacheId m).isSome = true → (lookupPV b.cacheId m).isSome = true

/-! ### Theorems about path addressing -/

theorem natCharsAux_acc (f : Nat) : ∀ n acc, natCharsAux f n acc = natCharsAux f n [] ++ acc := by
  induction f with
  | zero => intro n acc; simp [natCharsAux]
  | succ f ih =>
    intro n acc
    by_cases h : n < 10
    · simp [natCharsAux, h]
    · simp only [natCharsAux, if_neg h]
      rw [ih (n / 10) (dChar (n % 10) :: acc), ih (n / 10) [dChar (n % 10)]]
      simp

theorem dChar_isDigit (d : Nat) : (dChar d).isDigit = true := by
  match d with
  | 0 => rfl
  | 1 => rfl
  | 2 => rfl
  | 3 => rfl
  | 4 => rfl
  | 5 => rfl
  | 6 => rfl
  | 7 => rfl
  | 8 => rfl
  | n + 9 => rfl

theorem natCharsAux_digits (f : Nat) :
    ∀ n acc, (∀ c ∈ acc, c.isDigit = true) → ∀ c ∈ natCharsAux f n acc, c.isDigit = true := by
  induction f with
  | zero => intro n acc hacc; simpa [natCharsAux] using hacc
  | succ f ih =>
    intro n acc hacc c hc
    by_cases h : n < 10
    · simp only [natCharsAux, if_pos h, List.mem_cons] at hc
      rcases hc with rfl | hc
      · exact dChar_isDigit n
      · exact hacc c hc
    · simp only [natCharsAux, if_neg h] at hc
      refine ih (n / 10) (dChar (n % 10) :: acc) ?_ c hc
      intro x hx
      rcases List.mem_cons.1 hx with rfl | hx
      · exact dChar_isDigit _
      · exact hacc x hx

theorem natChars_digits (n : Nat) : ∀ c ∈ natChars n, c.isDigit = true :=
  natCharsAux_digits (n + 1) n [] (by simp)

theorem digitVal_dChar (d : Nat) (h : d < 10) : digitVal (dChar d) = d := by
  interval_cases d <;> decide

theorem digitsVal_append (ds : List Char) (c : Char) :
    digitsVal (ds ++ [c]) = digitsVal ds * 10 + digitVal c := by
  simp [digitsVal, List.foldl_append]

theorem digitsVal_natCharsAux (f : Nat) :
    ∀ n, n < f → digitsVal (natCharsAux f n []) = n := by
  induction f with
  | zero => intro n h; omega
  | succ f ih =>
    intro n hn
    by_cases h : n < 10
    · simp [natCharsAux, h, digitsVal, digitVal_dChar n h]
    · have h10 : 10 ≤ n := Nat.le_of_not_lt h
      have hdivlt : n / 10 < f := by
        have : n / 10 < n := Nat.div_lt_self (by omega) (by omega)
        omega
      simp only [natCharsAux, if_neg h]
      rw [natCharsAux_acc, digitsVal_append, ih (n / 10) hdivlt,
        digitVal_dChar (n % 10) (Nat.mod_lt n (by omega))]
      omega

theorem digitsVal_natChars (n : Nat) : digitsVal (natChars n) = n :=
  digitsVal_natCharsAux (n + 1) n (Nat.lt_succ_self n)

theorem natChars_ne_nil (n : Nat) : natChars n ≠ [] := by
  unfold natChars natCharsAux
  by_cases h : n < 10
  · simp [h]
  · simp only [if_neg h]
    rw [natCharsAux_acc]
    simp

/-! Single transitions of the `split_path` automaton on a known first
character, stated as rewriting lemmas. -/

theorem stepInWordChar (acc : List Char) (c : Char) (rest : List Char)
    (h : isWordChar c = true) :
    splitAux (.inWord acc) (c :: rest) = splitAux (.inWord (acc ++ [c])) rest := by
  simp [splitAux, h]

theorem stepInWordDot (acc rest : List Char) :
    splitAux (.inWord acc) ('.' :: rest)
      = (splitAux .afterDotPend rest).map (PathComp.str (String.mk acc) :: ·) := rfl

theorem stepInWordBracket (acc rest : List Char) :
    splitAux (.inWord acc) ('[' :: rest)
      = (splitAux .bracketStart rest).map (PathComp.str (String.mk acc) :: ·) := rfl

theorem stepAfterTokDot (rest : List Char) :
    splitAux .afterTok ('.' :: rest) = splitAux .afterDotPend rest := rfl

theorem stepAfterTokBracket (rest : List Char) :
    splitAux .afterTok ('[' :: rest) = splitAux .bracketStart rest := rfl

theorem stepAfterDotPendChar (c : Char) (rest : List Char) (h : isWordChar c = true) :
    splitAux .afterDotPend (c :: rest) = splitAux (.inWord [c]) rest := by
  simp [splitAux, h]

theorem stepStartChar (c : Char) (rest : List Char) (h : isWordChar c = true) :
    splitAux .start (c :: rest) = splitAux (.inWord [c]) rest := by
  simp [splitAux, h]

theorem stepStartBracket (rest : List Char) :
    splitAux .start ('[' :: rest) = splitAux .bracketStart rest := rfl

theorem stepBracketStartMinus (rest : List Char) :
    splitAux .bracketStart ('-' :: rest) = splitAux (.bracketDigits true []) rest := rfl

theorem stepBracketStartDigit (c : Char) (rest : List Char) (h : c.isDigit = true) :
    splitAux .bracketStart (c :: rest) = splitAux (.bracketDigits false [c]) rest := by
  have hne : ¬ (c = '-') := by
    intro hc; rw [hc] at h; exact absurd h (by decide)
  simp [splitAux, h, hne]

theorem stepBracketDigitsDigit (neg : Bool) (acc : List Char) (c : Char)
    (rest : List Char) (h : c.isDigit = true) :
    splitAux (.bracketDigits neg acc) (c :: rest)
      = splitAux (.bracketDigits neg (acc ++ [c])) rest := by
  simp [splitAux, h]

theorem stepBracketDigitsClose (neg : Bool) (acc rest : List Char) (h : acc ≠ []) :
    splitAux (.bracketDigits neg acc) (']' :: rest)
      = (splitAux .afterTok rest).map
          (PathComp.idx (if neg then -(digitsVal acc : Int) else (digitsVal acc : Int)) :: ·) := by
  have h2 : acc.isEmpty = false := by
    cases acc with
    | nil => exact absurd rfl h
    | cons a t => rfl
  simp [splitAux, h2]

theorem dot_data : ("." : String).data = ['.'] := rfl

theorem mk_data (l : List Char) : (String.mk l).data = l := rfl

theorem validComp_str (s : String) (h : validComp (.str s) = true) :
    s.data ≠ [] ∧ s.data.all isWordChar = true := by
  simp only [validComp, Bool.and_eq_true] at h
  refine ⟨?_, h.2⟩
  intro hnil
  rw [hnil] at h
  simp at h

/-- Consuming a run of identifier characters just extends the current word. -/
theorem splitAux_inWord_word :
    ∀ (w : List Char) (acc rest : List Char), w.all isWordChar = true →
      splitAux (.inWord acc) (w ++ rest) = splitAux (.inWord (acc ++ w)) rest := by
  intro w
  induction w with
  | nil => intro acc rest _; simp
  | cons c w ih =>
    intro acc rest hall
    simp only [List.all_cons, Bool.and_eq_true] at hall
    rw [List.cons_append, stepInWordChar acc c (w ++ rest) hall.1, ih (acc ++ [c]) rest hall.2]
    simp

/-- Consuming a run of digits inside brackets just extends the digit
accumulator. -/
theorem splitAux_digits :
    ∀ (ds : List Char) (neg : Bool) (acc rest : List Char), ds.all Char.isDigit = true →
      splitAux (.bracketDigits neg acc) (ds ++ rest)
        = splitAux (.bracketDigits neg (acc ++ ds)) rest := by
  intro ds
  induction ds with
  | nil => intro neg acc rest _; simp
  | cons c ds ih =>
    intro neg acc rest hall
    simp only [List.all_cons, Bool.and_eq_true] at hall
    rw [List.cons_append, stepBracketDigitsDigit neg acc c (ds ++ rest) hall.1,
      ih neg (acc ++ [c]) rest hall.2]
    simp

/-- At the end of an identifier (end of input, a dot, or an opening
bracket), the word is emitted and scanning proceeds as from `afterTok`. -/
theorem splitAux_inWord_exit (acc rest : List Char)
    (h : rest = [] ∨ (∃ t, rest = '.' :: t) ∨ (∃ t, rest = '[' :: t)) :
    splitAux (.inWord acc) rest
      = (splitAux .afterTok rest).map (PathComp.str (String.mk acc) :: ·) := by
  rcases h with rfl | ⟨t, rfl⟩ | ⟨t, rfl⟩
  · rfl
  · rw [stepInWordDot, stepAfterTokDot]
  · rw [stepInWordBracket, stepAfterTokBracket]

/-- The bracketed rendering of any integer scans back to that integer. -/
theorem splitAux_bracket_int (n : Int) (rest : List Char) :
    splitAux .bracketStart (intChars n ++ ']' :: rest)
      = (splitAux .afterTok rest).map (PathComp.idx n :: ·) := by
  have hd : (natChars n.natAbs).all Char.isDigit = true := by
    rw [List.all_eq_true]
    intro c hc; exact natChars_digits _ c hc
  by_cases hn : n < 0
  · rw [show intChars n = '-' :: natChars n.natAbs from by simp [intChars, hn]]
    rw [List.cons_append, stepBracketStartMinus,
      splitAux_digits (natChars n.natAbs) true [] (']' :: rest) hd, List.nil_append,
      stepBracketDigitsClose true (natChars n.natAbs) rest (natChars_ne_nil _)]
    have : (if true then -(digitsVal (natChars n.natAbs) : Int)
        else (digitsVal (natChars n.natAbs) : Int)) = n := by
      rw [if_pos rfl, digitsVal_natChars]; omega
    rw [this]
  · rw [show intChars n = natChars n.natAbs from by simp [intChars, hn]]
    rcases hh : natChars n.natAbs with _ | ⟨c, cs⟩
    · exact absurd hh (natChars_ne_nil _)
    · have hcd : c.isDigit = true := natChars_digits n.natAbs c (by rw [hh]; simp)
      have hcsd : cs.all Char.isDigit = true := by
        rw [hh] at hd; simp only [List.all_cons, Bool.and_eq_true] at hd; exact hd.2
      rw [List.cons_append, stepBracketStartDigit c _ hcd,
        splitAux_digits cs false [c] (']' :: rest) hcsd,
        stepBracketDigitsClose false ([c] ++ cs) rest (by simp)]
      have : (if false then -(digitsVal ([c] ++ cs) : Int)
          else (digitsVal ([c] ++ cs) : Int)) = n := by
        rw [if_neg (by simp)]
        have := digitsVal_natChars n.natAbs
        rw [hh] at this
        simp only [List.singleton_append]
        rw [this]; omega
      rw [this]

theorem renderRest_head (p : List PathComp) :
    renderRest p = [] ∨ (∃ t, renderRest p = '.' :: t) ∨ (∃ t, renderRest p = '[' :: t) := by
  match p with
  | [] => exact Or.inl rfl
  | .str s :: t => exact Or.inr (Or.inl ⟨s.data ++ renderRest t, rfl⟩)
  | .idx n :: t => exact Or.inr (Or.inr ⟨intChars n ++ ']' :: renderRest t, rfl⟩)

/-- Scanning the tail rendering from the between-components state recovers
exactly the components. -/
theorem splitAux_renderRest :
    ∀ p : List PathComp, validComps p = true →
      splitAux .afterTok (renderRest p) = some p := by
  intro p
  induction p with
  | nil => intro _; rfl
  | cons c t ih =>
    intro hv
    simp only [validComps, List.all_cons, Bool.and_eq_true] at hv
    have ht : validComps t = true := hv.2
    match c with
    | .str s =>
      have hs : s.data ≠ [] ∧ s.data.all isWordChar = true := validComp_str s hv.1
      rcases hsd : s.data with _ | ⟨c0, w⟩
      · exact absurd hsd hs.1
      · have hc0 : isWordChar c0 = true := by
          have := hs.2; rw [hsd] at this
          simp only [List.all_cons, Bool.and_eq_true] at this; exact this.1
        have hw : w.all isWordChar = true := by
          have := hs.2; rw [hsd] at this
          simp only [List.all_cons, Bool.and_eq_true] at this; exact this.2
        rw [show renderRest (.str s :: t) = '.' :: (c0 :: (w ++ renderRest t)) from by
          simp [renderRest, hsd]]
        rw [stepAfterTokDot, stepAfterDotPendChar c0 _ hc0,
          splitAux_inWord_word w [c0] (renderRest t) hw, List.singleton_append,
          splitAux_inWord_exit (c0 :: w) (renderRest t) (renderRest_head t), ih ht]
        have : String.mk (c0 :: w) = s := by rw [← hsd]
        rw [this]
        rfl
    | .idx n =>
      rw [show renderRest (.idx n :: t) = '[' :: (intChars n ++ ']' :: renderRest t) from rfl]
      rw [stepAfterTokBracket, splitAux_bracket_int n (renderRest t), ih ht]
      rfl

/-- Scanning the full rendering from the start state recovers the
components. -/
theorem splitAux_renderFirst (p : List PathComp) (hv : validComps p = true) :
    splitAux .start (renderFirst p) = some p := by
  match p with
  | [] => rfl
  | .str s :: t =>
    have hv1 := hv
    simp only [validComps, List.all_cons, Bool.and_eq_true] at hv1
    have hs : s.data ≠ [] ∧ s.data.all isWordChar = true := validComp_str s hv1.1
    rcases hsd : s.data with _ | ⟨c0, w⟩
    · exact absurd hsd hs.1
    · have hc0 : isWordChar c0 = true := by
        have := hs.2; rw [hsd] at this
        simp only [List.all_cons, Bool.and_eq_true] at this; exact this.1
      have hw : w.all isWordChar = true := by
        have := hs.2; rw [hsd] at this
        simp only [List.all_cons, Bool.and_eq_true] at this; exact this.2
      rw [show renderFirst (.str s :: t) = c0 :: (w ++ renderRest t) from by
        simp [renderFirst, hsd]]
      rw [stepStartChar c0 _ hc0, splitAux_inWord_word w [c0] (renderRest t) hw,
        List.singleton_append,
        splitAux_inWord_exit (c0 :: w) (renderRest t) (renderRest_head t),
        splitAux_renderRest t hv1.2]
      have : String.mk (c0 :: w) = s := by rw [← hsd]
      rw [this]
      rfl
  | .idx n :: t =>
    have hv1 := hv
    simp only [validComps, List.all_cons, Bool.and_eq_true] at hv1
    rw [show renderFirst (.idx n :: t) = '[' :: (intChars n ++ ']' :: renderRest t) from rfl]
    rw [stepStartBracket, splitAux_bracket_int n (renderRest t),
      splitAux_renderRest t hv1.2]
    rfl

/-- `join_path`'s left fold, once the accumulator is non-empty, appends
exactly the tail rendering. -/
theorem joinPath_fold (t : List PathComp) :
    ∀ ret : String, ret.data ≠ [] →
      (List.foldl (fun ret c => ret ++ getChildAccessor c ret) ret t).data
        = ret.data ++ renderRest t := by
  induction t with
  | nil => intro ret _; simp [renderRest]
  | cons c t ih =>
    intro ret hret
    have hne : ret ≠ "" := by
      intro h; rw [h] at hret; exact hret rfl
    match c with
    | .str s =>
      have harg : ret ++ getChildAccessor (.str s) ret = ret ++ ("." ++ s) := by
        simp [getChildAccessor, hne]
      rw [List.foldl_cons, harg,
        ih (ret ++ ("." ++ s)) (by simp [String.data_append])]
      simp [String.data_append, renderRest, dot_data]
    | .idx n =>
      rw [List.foldl_cons,
        ih (ret ++ getChildAccessor (.idx n) ret)
          (by simp [getChildAccessor, String.data_append])]
      simp [getChildAccessor, String.data_append, renderRest, mk_data]

theorem empty_data : ("" : String).data = [] := rfl

theorem joinPath_data (p : List PathComp) (hv : validComps p = true) :
    (joinPath p).data = renderFirst p := by
  match p with
  | [] => rfl
  | .str s :: t =>
    have hs : s.data ≠ [] := by
      simp only [validComps, List.all_cons, Bool.and_eq_true] at hv
      exact (validComp_str s hv.1).1
    have harg : ("" : String) ++ getChildAccessor (.str s) "" = s := by
      apply String.ext
      simp only [getChildAccessor,
        if_neg (show ¬(("" : String) ≠ "") from fun h => h rfl)]
      simp [String.data_append, empty_data]
    simp only [joinPath, List.foldl_cons]
    rw [harg, joinPath_fold t s hs]
    simp [renderFirst]
  | .idx n :: t =>
    have harg : ("" : String) ++ getChildAccessor (.idx n) ""
        = String.mk ('[' :: (intChars n ++ [']'])) := by
      apply String.ext
      simp only [getChildAccessor]
      simp [String.data_append, empty_data, mk_data]
    simp only [joinPath, List.foldl_cons]
    rw [harg, joinPath_fold t (String.mk ('[' :: (intChars n ++ [']']))) (by simp [mk_data])]
    simp [mk_data, renderFirst]

/-- C2: for every path given as a sequence of components, each component
either a string matching `[A-Za-z0-9_]+` or a (possibly negative) integer,
`split_path (join_path p)` yields exactly the components of `p` (strings
unchanged, integers as ints): `NodePath.split_path` and
`NodePath.join_path` are exact inverses on paths produced by `join_path`. -/
theorem c2_split_join_inverse (p : List PathComp) (hv : validComps p = true) :
    splitPath (joinPath p) = some p := by
  unfold splitPath
  rw [joinPath_data p hv]
  exact splitAux_renderFirst p hv

theorem c2_split_join_inverse_witness :
    validComps [PathComp.str (String.mk ['f', 'o', 'o']), PathComp.idx (-2),
        PathComp.str (String.mk ['b', 'a', 'r', '_', '1']), PathComp.idx 0] = true
      ∧ splitPath (joinPath [PathComp.str (String.mk ['f', 'o', 'o']), PathComp.idx (-2),
          PathComp.str (String.mk ['b', 'a', 'r', '_', '1']), PathComp.idx 0])
        = some [PathComp.str (String.mk ['f', 'o', 'o']), PathComp.idx (-2),
            PathComp.str (String.mk ['b', 'a', 'r', '_', '1']), PathComp.idx 0] :=
  ⟨by decide, c2_split_join_inverse _ (by decide)⟩

/-! ### Theorems about the merge engine -/

theorem propagateF_scalar (f : Nat) (v : Int) (fl : Flags) :
    propagateF f (.scalar v fl) = .scalar v fl := by cases f <;> rfl

theorem noneBeqSomeTrue : ((none : Option Bool) == some true) = false := rfl

/-- Merging two single-key dicts whose children are scalars with equal
effective priorities and no explicit delete on the incoming side: the
incoming scalar replaces the destination's child (re-wrapped with the
parent's — empty — implicit kwargs). -/
theorem mergeSingleKeyTie (f : Nat) (k : String) (a b : Int) (fa fb : Flags)
    (h1 : effPriority (CNode.scalar a fa) = effPriority (CNode.scalar b fb))
    (h2 : fb.delete = none) :
    nestedMergeF (f + 1) (.dict [(.str k, .scalar a fa)] {})
        (.dict [(.str k, .scalar b fb)] {}) []
      = .ok false (.dict [(.str k, .scalar b
          { fb with implicitDelete := none, implicitAllowNew := none,
                    implicitSafe := if fb.implicitSafe == some false then fb.implicitSafe
                      else none })] {}) := by
  have hp : fb.priority.getD 0 = fa.priority.getD 0 := h1.symm
  simp only [nestedMergeF, effDelete, CNode.defaultDelete, CNode.flags, CNode.isComposed,
    Bool.not_false, Bool.not_true, if_true, if_false, Bool.false_eq_true, childrenEntries,
    List.foldl_cons, List.foldl_nil, getChild, List.find?, beq_self_eq_true,
    Option.map_some', fallbackMerge, requireAllNewF, hasPriorityOver, hp,
    h2, setChild, setChildD, applyParentKwargs, childKwargs, propagateF_scalar,
    CNode.withFlags, List.any_cons, List.any_nil, Bool.or_false, List.map_cons,
    List.map_nil, CNode.truthy, noneBeqSomeTrue, Bool.and_false, effPriority,
    Option.getD_none]

/-- C1: `Builder.flatten` merges the parsed stages by a left-to-right
fold, so for stages `[S0, S1, S2]` (all dicts, stage 0 passing the
`allow_new` check) the result is exactly `merge(merge(S0, S1), S2)`; and
when two scalar values conflict at the same path with equal effective
priority and no delete flag on the incoming side, the later (incoming)
stage's value wins: flattening `{k: a}` then `{k: b}` and evaluating
yields `{k: b}` — in particular `{foo: 12}`, `{foo: 1}` gives `{foo: 1}`
(see the witness). -/
theorem c1_flatten_fold_later_wins :
    (∀ (f : Nat) (s0 s1 s2 : CNode),
      ([s0, s1, s2].all CNode.isDict) = true →
      requireAllNewF f (premergeId s0) [] none true = none →
      flattenF f [s0, s1, s2]
        = (match mergeTop f s0 s1 with
           | .error e => .error e
           | .ok r => mergeTop f r s2))
    ∧ (∀ (k : String) (a b : Int) (fa fb : Flags),
        effPriority (.scalar a fa) = effPriority (.scalar b fb) →
        fb.delete = none →
        effAllowNew (.scalar a fa) = true →
        flattenEvalF 4 [.dict [(.str k, .scalar a fa)] {}, .dict [(.str k, .scalar b fb)] {}]
          = .ok (.dict [(.str k, .int b)])) := by
  constructor
  · intro f s0 s1 s2 hall hreq
    simp only [flattenF, hall, Bool.not_true, Bool.false_eq_true, if_false, premergeId] at *
    rw [hreq]
    simp only [List.foldlM]
    cases hm : mergeTop f s0 s1 with
    | error e => rfl
    | ok r =>
      show Except.bind (mergeTop f r s2) Except.ok = mergeTop f r s2
      cases mergeTop f r s2 <;> rfl
  · intro k a b fa fb h1 h2 h3
    have h3' : fa.implicitAllowNew.getD true = true := h3
    simp only [flattenEvalF, flattenF, List.all_cons, List.all_nil, CNode.isDict,
      Bool.and_true, Bool.and_self, Bool.not_true, Bool.false_eq_true, if_false,
      requireAllNewF, premergeId, CNode.isComposed, nodesWithPathsF, childrenEntries,
      List.flatMap_cons, List.flatMap_nil, List.append_nil, List.findSome?, h3',
      effAllowNew, Option.getD_none, Bool.not_true, Bool.false_and, CNode.flags,
      List.foldlM, mergeTop]
    rw [mergeSingleKeyTie 3 k a b fa fb h1 h2]
    rfl

theorem c1_flatten_fold_later_wins_witness :
    (flattenF 4 [CNode.dict [(.str "foo", .scalar 12 {})] {},
        CNode.dict [(.str "foo", .scalar 7 {})] {},
        CNode.dict [(.str "bar", .scalar 3 {})] {}]
      = (match mergeTop 4 (CNode.dict [(.str "foo", .scalar 12 {})] {})
            (CNode.dict [(.str "foo", .scalar 7 {})] {}) with
         | .error e => .error e
         | .ok r => mergeTop 4 r (CNode.dict [(.str "bar", .scalar 3 {})] {})))
    ∧ flattenEvalF 4 [CNode.dict [(.str "foo", .scalar 12 {})] {},
        CNode.dict [(.str "foo", .scalar 1 {})] {}]
      = .ok (.dict [(.str "foo", .int 1)]) :=
  ⟨c1_flatten_fold_later_wins.1 4 _ _ _ rfl rfl,
   c1_flatten_fold_later_wins.2 "foo" 12 1 {} {} rfl rfl rfl⟩

/-- A node whose effective `allow_new` is false fails a
`_require_all_new` check (with no exceptions) immediately on itself. -/
theorem requireAllNewF_self (f : Nat) (n : CNode) (path : List PathComp)
    (h : effAllowNew n = false) :
    requireAllNewF (f + 1) n path none true = some ⟨path, n.flags.sourceFile⟩ := by
  by_cases hc : n.isComposed = true
  · simp [requireAllNewF, nodesWithPathsF, hc, h, List.findSome?, pathExcluded]
  · simp [requireAllNewF, hc, h, pathExcluded]

/-- C6: merging a dict that introduces, at a key the destination does not
contain, a node whose effective `allow_new` flag is false raises the merge
error naming the offending path (`prefix + [key]`) and that node's source
file — in particular (witness) a stage whose new top-level key is marked
must-already-exist merged into an empty destination. -/
theorem c6_allow_new_violation (f : Nat) (ds : List (PathComp × CNode)) (fl ofl : Flags)
    (k : PathComp) (v : CNode) (pfx : List PathComp)
    (hmiss : getChild (.dict ds fl) k = none)
    (hdel : effDelete (.dict [(k, v)] ofl) = false)
    (hnew : effAllowNew v = false) :
    nestedMergeF (f + 2) (.dict ds fl) (.dict [(k, v)] ofl) pfx
      = .err (.requireNew (pfx ++ [k]) v.flags.sourceFile) := by
  simp only [nestedMergeF, hdel, Bool.false_eq_true, if_false, CNode.isComposed,
    Bool.not_true, childrenEntries, List.foldl_cons, List.foldl_nil, hmiss,
    requireAllNewF_self f v (pfx ++ [k]) hnew]

theorem c6_allow_new_violation_witness :
    nestedMergeF 2 (.dict [] {})
        (.dict [(.str "fooo",
          .scalar 1 { implicitAllowNew := some false, sourceFile := some "cli.yaml" })] {}) []
      = .err (.requireNew [.str "fooo"] (some "cli.yaml")) :=
  c6_allow_new_violation 0 [] {} {} (.str "fooo")
    (.scalar 1 { implicitAllowNew := some false, sourceFile := some "cli.yaml" }) []
    rfl rfl rfl

/-! ### Theorems about list defaults and list replacement (C10) -/

theorem findSome?_allow_none (l : List (List PathComp × CNode))
    (exc : Option (List (List PathComp)))
    (h : ∀ e ∈ l, effAllowNew e.2 = true) :
    l.findSome? (fun e =>
      if !effAllowNew e.2 && !pathExcluded exc e.1 then
        some (⟨e.1, e.2.flags.sourceFile⟩ : ReqErr)
      else none) = none := by
  induction l with
  | nil => rfl
  | cons a t ih =>
    simp only [List.findSome?]
    rw [h a (by simp)]
    simp only [Bool.not_true, Bool.false_and, Bool.false_eq_true, if_false]
    exact ih (fun e he => h e (by simp [he]))

theorem nwp_scalars_allow (f : Nat) (vals : List Int) (pfx : List PathComp) (incl : Bool) :
    ∀ e ∈ nodesWithPathsF f pfx (.list (vals.map scf) {}) incl, effAllowNew e.2 = true := by
  cases f with
  | zero => intro e he; simp [nodesWithPathsF] at he
  | succ f =>
    intro e he
    simp only [nodesWithPathsF, CNode.isComposed, if_true, childrenEntries,
      List.mem_append, List.mem_flatMap] at he
    rcases he with he | ⟨x, hx, he⟩
    · rcases incl with _ | _
      · simp at he
      · simp at he
        rw [he]
        rfl
    · rcases List.mem_map.1 hx with ⟨y, hy, hxy⟩
      have hy2 : y.2 ∈ vals.map scf :=
        List.getElem?_mem (List.mem_enum_iff_getElem?.1 hy)
      rcases List.mem_map.1 hy2 with ⟨v, _, hv⟩
      rw [← hxy] at he
      simp only [← hv, scf, CNode.isComposed, Bool.false_eq_true, if_false,
        List.mem_singleton] at he
      rw [he]
      rfl

theorem reqNone_of_allow (f : Nat) (n : CNode) (path : List PathComp)
    (exc : Option (List (List PathComp))) (incl : Bool)
    (hcomp : n.isComposed = true)
    (h : ∀ e ∈ nodesWithPathsF f path n incl, effAllowNew e.2 = true) :
    requireAllNewF f n path exc incl = none := by
  simp only [requireAllNewF, hcomp, if_true]
  exact findSome?_allow_none _ exc h

theorem nwp_stage_allow (f : Nat) (k : PathComp) (vals : List Int)
    (pfx : List PathComp) (incl : Bool) :
    ∀ e ∈ nodesWithPathsF f pfx
        (.dict [(k, .list (vals.map scf) {})] {}) incl, effAllowNew e.2 = true := by
  cases f with
  | zero => intro e he; simp [nodesWithPathsF] at he
  | succ f =>
    intro e he
    simp only [nodesWithPathsF, CNode.isComposed, if_true, childrenEntries,
      List.mem_append, List.flatMap_cons, List.flatMap_nil, List.append_nil,
      Bool.true_eq, List.mem_singleton] at he
    rcases he with he | he
    · rcases incl with _ | _
      · simp at he
      · simp at he
        rw [he]
        rfl
    · exact nwp_scalars_allow f vals (pfx ++ [k]) true e he

theorem gfnm_scalars_priority0 (vals : List Int) :
    ∀ p, effPriority (getFirstNotMissing (.list (vals.map scf) {}) p) = 0 := by
  intro p
  match p with
  | [] => rfl
  | k :: rest =>
    simp only [getFirstNotMissing]
    by_cases hk : hasChildStrict (.list (vals.map scf) {}) k = true
    · rw [if_pos hk]
      match hg : getChild (.list (vals.map scf) {}) k with
      | none => rfl
      | some c =>
        have hc : c ∈ vals.map scf := by
          rcases k with ks | kv
          · simp [getChild] at hg
          · simp only [getChild] at hg
            by_cases hok : listIdxStrictOk (vals.map scf).length kv = true
            · rw [if_pos hok] at hg
              exact List.getElem?_mem (by simpa using hg)
            · rw [if_neg hok] at hg
              simp at hg
        rcases List.mem_map.1 hc with ⟨v, _, hv⟩
        rw [← hv]
        match rest with
        | [] => rfl
        | k2 :: r2 =>
          simp only [getFirstNotMissing, scf, hasChildStrict, Bool.false_eq_true, if_false]
          rfl
    · rw [if_neg hk]
      rfl

theorem hasPriorityOver_zero (a b : CNode) (h1 : effPriority a = 0) (h2 : effPriority b = 0) :
    hasPriorityOver a b false = false := by
  simp [hasPriorityOver, h1, h2]

theorem filter_scalars_all_dropped (f : Nat) (vals vals2 : List Int) (pfx : List PathComp) :
    (filterNodesF (f + 1) (fun p node =>
        hasPriorityOver node (getFirstNotMissing (.list (vals2.map scf) {}) p) false)
      pfx (.list (vals.map scf) {})).1 = .list [] {} := by
  simp only [filterNodesF]
  have hnil : ∀ (steps : List FilterStep), (∀ s ∈ steps, s.keep = false) →
      (steps.filter (·.keep)).map FilterStep.node = [] := by
    intro steps hs
    rw [List.filter_eq_nil_iff.2 (fun a ha => by simp [hs a ha])]
    rfl
  rw [hnil _ ?_]
  intro s hs
  rcases List.mem_map.1 hs with ⟨y, hy, hys⟩
  have hy2 : y.2 ∈ vals.map scf := List.getElem?_mem (List.mem_enum_iff_getElem?.1 hy)
  rcases List.mem_map.1 hy2 with ⟨v, _, hv⟩
  rw [← hys]
  simp only [← hv, scf, CNode.isComposed, Bool.false_eq_true, if_false, Bool.and_self,
    Bool.false_and, Bool.or_false]
  exact hasPriorityOver_zero _ _ rfl (gfnm_scalars_priority0 vals2 _)

theorem mergeListReplace (f : Nat) (vals1 vals2 : List Int) (pfx : List PathComp) :
    nestedMergeF (f + 2) (.list (vals1.map scf) {}) (.list (vals2.map scf) {}) pfx
      = .ok true (.list (vals2.map scf) {}) := by
  have h1 : effDelete (CNode.list (vals2.map scf) {}) = true := rfl
  have h2 : (CNode.list (vals2.map scf) {}).isComposed = true := rfl
  simp only [nestedMergeF, h1, if_true, h2, Bool.not_true, Bool.not_false,
    Bool.false_eq_true, if_false]
  rw [filter_scalars_all_dropped f vals1 vals2 pfx]
  rw [reqNone_of_allow (f + 1) (CNode.list (vals2.map scf) {}) pfx _ true rfl
    (nwp_scalars_allow (f + 1) vals2 pfx true)]
  rfl

theorem evalTreeF_scalars (f : Nat) (vals : List Int) :
    ((vals.map scf).foldr (fun c acc =>
        match evalTreeF (f + 1) c, acc with
        | some v, some l => some (v :: l)
        | _, _ => none) (some []))
      = some (vals.map PValue.int) := by
  induction vals with
  | nil => rfl
  | cons v t ih =>
    simp only [List.map_cons, List.foldr_cons, ih]
    rfl

theorem mergeSingleAdoptOther (f : Nat) (k : PathComp) (dch : List (PathComp × CNode))
    (fl flo : Flags) (c v r s2 : CNode) (pfx : List PathComp)
    (hdel : effDelete (.dict [(k, v)] flo) = false)
    (hget : getChild (.dict dch fl) k = some c)
    (hc : c.isComposed = true)
    (hrec : nestedMergeF f c v (pfx ++ [k]) = .ok true r)
    (hcond : (!r.truthy && !hasPriorityOver r v false && v.flags.delete == some true) = false)
    (hset : setChild f (.dict dch fl) k r = some s2)
    (htie : hasPriorityOver (.dict [(k, v)] flo) s2 true = true) :
    nestedMergeF (f + 1) (.dict dch fl) (.dict [(k, v)] flo) pfx
      = .ok false (s2.withFlags { s2.flags with priority := flo.priority, delete := flo.delete, implicitDelete := flo.implicitDelete }) := by
  have hoc : (CNode.dict [(k, v)] flo).isComposed = true := rfl
  have hofl : (CNode.dict [(k, v)] flo).flags = flo := rfl
  simp only [nestedMergeF, hdel, Bool.false_eq_true, if_false, hoc, hofl,
    Bool.not_true, Bool.not_false, childrenEntries, List.foldl_cons, List.foldl_nil,
    hget, hc, if_true, hrec, hcond, hset, htie, eq_self_iff_true]

theorem c10test (k : String) (vals1 vals2 : List Int) :
    flattenEvalF 5 [ .dict [(.str k, .list (vals1.map scf) {})] {},
                     .dict [(.str k, .list (vals2.map scf) {})] {}]
      = .ok (.dict [(.str k, .list (vals2.map PValue.int))]) := by
  simp only [flattenEvalF, flattenF, List.all_cons, List.all_nil, CNode.isDict,
    Bool.and_true, Bool.and_self, Bool.not_true, Bool.false_eq_true, if_false, premergeId]
  rw [reqNone_of_allow 5 (.dict [(.str k, .list (vals1.map scf) {})] {}) [] none true rfl
    (nwp_stage_allow 5 (.str k) vals1 [] true)]
  simp only [List.foldlM, mergeTop, premergeId]
  have hml : nestedMergeF 4 (.list (vals1.map scf) {}) (.list (vals2.map scf) {})
      ([] ++ [PathComp.str k]) = .ok true (.list (vals2.map scf) {}) :=
    mergeListReplace 2 vals1 vals2 ([] ++ [PathComp.str k])
  have hap : applyParentKwargs 4 (.dict [(.str k, .list (vals1.map scf) {})] {})
      (.list (vals2.map scf) {}) = .list (vals2.map scf) {} := rfl
  have hset : setChild 4 (.dict [(.str k, .list (vals1.map scf) {})] {}) (.str k)
      (.list (vals2.map scf) {})
      = some (.dict [(.str k, .list (vals2.map scf) {})] {}) := by
    simp only [setChild, hap, setChildD, List.any_cons, List.any_nil, beq_self_eq_true,
      Bool.or_false, if_true, List.map_cons, List.map_nil]
  have hl4 : evalTreeF 4 (.list (vals2.map scf) {}) = some (.list (vals2.map PValue.int)) := by
    show ((vals2.map scf).foldr (fun c acc =>
        match evalTreeF (2 + 1) c, acc with
        | some v, some l => some (v :: l)
        | _, _ => none) (some [])).map PValue.list
      = some (.list (vals2.map PValue.int))
    rw [evalTreeF_scalars 2 vals2]
    rfl
  have hev : evalTreeF 5 (.dict [(.str k, .list (vals2.map scf) {})] {})
      = some (.dict [(.str k, .list (vals2.map PValue.int))]) := by
    show (([(PathComp.str k, CNode.list (vals2.map scf) {})].foldr (fun e acc =>
        match evalTreeF 4 e.2, acc with
        | some v, some l => some ((e.1, v) :: l)
        | _, _ => none) (some [])).map PValue.dict)
      = some (.dict [(.str k, .list (vals2.map PValue.int))])
    simp only [List.foldr_cons, List.foldr_nil, hl4]
    rfl
  rw [mergeSingleAdoptOther 4 (.str k) [(.str k, .list (vals1.map scf) {})] {} {}
    (.list (vals1.map scf) {}) (.list (vals2.map scf) {}) (.list (vals2.map scf) {})
    (.dict [(.str k, .list (vals2.map scf) {})] {}) []
    rfl (by simp [getChild, List.find?]) rfl hml
    (by simp [CNode.flags, noneBeqSomeTrue, Bool.and_false]) hset rfl]
  show (match evalTreeF 5 (CNode.dict [(PathComp.str k, CNode.list (vals2.map scf) {})] {}) with
        | some v => Except.ok v
        | none => Except.error MergeErr.fuelOut)
      = Except.ok (PValue.dict [(PathComp.str k, PValue.list (vals2.map PValue.int))])
  rw [hev]

theorem withFlags_flags (n : CNode) (fl : Flags) : (n.withFlags fl).flags = fl := by
  cases n <;> rfl

theorem propagateF_flags (f : Nat) (n : CNode) : (propagateF f n).flags = n.flags := by
  cases f with
  | zero => rfl
  | succ f =>
    match n with
    | .scalar v fl => rfl
    | .required fl => rfl
    | .dict ch fl =>
      simp only [propagateF]
      split <;> rfl
    | .list ch fl =>
      simp only [propagateF]
      split <;> rfl

/-- C10: a list node with no explicit and no inherited `delete` resolves its
effective delete flag to `true` (`ConfigList._default_delete`), while dict
and scalar nodes default to `false`; a list parent with unset explicit
`delete` passes `implicit_delete = True` down via `_get_child_kwargs`, so a
re-wrapped child's implicit delete is `some true`; consequently merging one
list over another at the same path with equal (default) priority replaces
the destination's elements with the incoming ones. -/
theorem c10_list_default_delete :
    (∀ (ch : List CNode) (fl : Flags), fl.delete = none → fl.implicitDelete = none →
      effDelete (.list ch fl) = true)
    ∧ (∀ (ch : List (PathComp × CNode)) (fl : Flags), fl.delete = none →
        fl.implicitDelete = none → effDelete (.dict ch fl) = false)
    ∧ (∀ (v : Int) (fl : Flags), fl.delete = none → fl.implicitDelete = none →
        effDelete (.scalar v fl) = false)
    ∧ (∀ (ch : List CNode) (fl : Flags), fl.delete = none →
        (childKwargs (.list ch fl)).1 = some true)
    ∧ (∀ (f : Nat) (ch : List CNode) (fl : Flags) (child : CNode), fl.delete = none →
        (applyParentKwargs f (.list ch fl) child).flags.implicitDelete = some true)
    ∧ (∀ (k : String) (vals1 vals2 : List Int),
        flattenEvalF 5 [ .dict [(.str k, .list (vals1.map scf) {})] {},
                         .dict [(.str k, .list (vals2.map scf) {})] {}]
          = .ok (.dict [(.str k, .list (vals2.map PValue.int))])) := by
  refine ⟨?_, ?_, ?_, ?_, ?_, c10test⟩
  · intro ch fl h1 h2
    simp [effDelete, CNode.flags, CNode.defaultDelete, h1, h2]
  · intro ch fl h1 h2
    simp [effDelete, CNode.flags, CNode.defaultDelete, h1, h2]
  · intro v fl h1 h2
    simp [effDelete, CNode.flags, CNode.defaultDelete, h1, h2]
  · intro ch fl h1
    simp [childKwargs, CNode.flags, CNode.defaultDelete, h1]
  · intro f ch fl child h1
    simp only [applyParentKwargs, propagateF_flags, withFlags_flags]
    simp [childKwargs, CNode.flags, CNode.defaultDelete, h1]

theorem c10_list_default_delete_witness :
    effDelete (CNode.list [scf 1, scf 2] {}) = true
    ∧ effDelete (CNode.dict [(PathComp.str "a", scf 1)] {}) = false
    ∧ effDelete (CNode.scalar 3 {}) = false
    ∧ (childKwargs (CNode.list [scf 1] {})).1 = some true
    ∧ (applyParentKwargs 1 (CNode.list [scf 1] {}) (scf 2)).flags.implicitDelete = some true
    ∧ flattenEvalF 5 [ .dict [(.str "foo", .list ([1, 2].map scf) {})] {},
                       .dict [(.str "foo", .list ([3].map scf) {})] {}]
      = .ok (.dict [(.str "foo", .list ([3].map PValue.int))]) :=
  ⟨c10_list_default_delete.1 [scf 1, scf 2] {} rfl rfl,
   c10_list_default_delete.2.1 [(PathComp.str "a", scf 1)] {} rfl rfl,
   c10_list_default_delete.2.2.1 3 {} rfl rfl,
   c10_list_default_delete.2.2.2.1 [scf 1] {} rfl,
   c10_list_default_delete.2.2.2.2.1 1 [scf 1] {} (scf 2) rfl,
   c10_list_default_delete.2.2.2.2.2 "foo" [1, 2] [3]⟩

/-! ### Theorems about flag resolution and propagation (C3) -/

theorem flagsPres_refl (a : Flags) : FlagsPres a a := ⟨rfl, rfl, rfl, rfl, id⟩

theorem flagsPres_trans {a b c : Flags} (h1 : FlagsPres a b) (h2 : FlagsPres b c) :
    FlagsPres a c :=
  ⟨h1.1.trans h2.1, h1.2.1.trans h2.2.1, h1.2.2.1.trans h2.2.2.1,
   h1.2.2.2.1.trans h2.2.2.2.1, fun h => h1.2.2.2.2 (h2.2.2.2.2 h)⟩

theorem childrenEntries_withFlags (n : CNode) (fl : Flags) :
    childrenEntries (n.withFlags fl) = childrenEntries n := by
  cases n <;> rfl

theorem updFlags_pres (fl cf : Flags) : FlagsPres (updFlags fl cf).1 cf := by
  refine ⟨rfl, rfl, rfl, rfl, ?_⟩
  intro h
  simp [updFlags, h]

theorem propChild_pres (f : Nat)
    (ih : ∀ (n : CNode) (p : List PathComp) (m : CNode), Reaches n p m →
      ∃ m', Reaches (propagateF f n) p m' ∧ FlagsPres m'.flags m.flags)
    (fl : Flags) (c m : CNode) (q : List PathComp) (h : Reaches c q m) :
    ∃ m', Reaches (if (updFlags fl c.flags).2 then
        propagateF f (c.withFlags (updFlags fl c.flags).1)
      else c.withFlags (updFlags fl c.flags).1) q m'
      ∧ FlagsPres m'.flags m.flags := by
  have hA : ∃ m'', Reaches (c.withFlags (updFlags fl c.flags).1) q m''
      ∧ FlagsPres m''.flags m.flags := by
    cases h with
    | refl =>
      refine ⟨c.withFlags (updFlags fl c.flags).1, Reaches.refl _, ?_⟩
      rw [withFlags_flags]
      exact updFlags_pres fl c.flags
    | step hm2 hr2 =>
      refine ⟨m, Reaches.step ?_ hr2, flagsPres_refl _⟩
      rw [childrenEntries_withFlags]
      exact hm2
  obtain ⟨m'', hr'', hp''⟩ := hA
  by_cases hu : (updFlags fl c.flags).2 = true
  · rw [if_pos hu]
    obtain ⟨m', hr', hp'⟩ := ih _ q m'' hr''
    exact ⟨m', hr', flagsPres_trans hp' hp''⟩
  · rw [if_neg hu]
    exact ⟨m'', hr'', hp''⟩

theorem propagateF_reaches (f : Nat) : ∀ (n : CNode) (p : List PathComp) (m : CNode),
    Reaches n p m → ∃ m', Reaches (propagateF f n) p m' ∧ FlagsPres m'.flags m.flags := by
  induction f with
  | zero => intro n p m h; exact ⟨m, h, flagsPres_refl _⟩
  | succ f ih =>
    intro n p m h
    cases h with
    | refl =>
      refine ⟨propagateF (f + 1) n, Reaches.refl _, ?_⟩
      rw [propagateF_flags]
      exact flagsPres_refl _
    | step hmem hrest =>
      rename_i c k q
      cases n with
      | scalar v fl => simp [childrenEntries] at hmem
      | required fl => simp [childrenEntries] at hmem
      | dict ch fl =>
        by_cases hg : propGuard fl = true
        · refine ⟨m, ?_, flagsPres_refl _⟩
          have he : propagateF (f + 1) (.dict ch fl) = .dict ch fl := by
            simp [propagateF, hg]
          rw [he]
          exact Reaches.step hmem hrest
        · have hstep : propagateF (f + 1) (.dict ch fl)
              = .dict (ch.map (fun e => (e.1,
                  if (updFlags fl e.2.flags).2 then
                    propagateF f (e.2.withFlags (updFlags fl e.2.flags).1)
                  else e.2.withFlags (updFlags fl e.2.flags).1))) fl := by
            simp [propagateF, hg]
          rw [hstep]
          obtain ⟨m', hr', hp'⟩ := propChild_pres f ih fl c m q hrest
          refine ⟨m', Reaches.step ?_ hr', hp'⟩
          have hmem' : (k, c) ∈ ch := by simpa [childrenEntries] using hmem
          simp only [childrenEntries]
          exact List.mem_map.2 ⟨(k, c), hmem', rfl⟩
      | list ch fl =>
        by_cases hg : propGuard fl = true
        · refine ⟨m, ?_, flagsPres_refl _⟩
          have he : propagateF (f + 1) (.list ch fl) = .list ch fl := by
            simp [propagateF, hg]
          rw [he]
          exact Reaches.step hmem hrest
        · have hstep : propagateF (f + 1) (.list ch fl)
              = .list (ch.map (fun c =>
                  if (updFlags fl c.flags).2 then
                    propagateF f (c.withFlags (updFlags fl c.flags).1)
                  else c.withFlags (updFlags fl c.flags).1)) fl := by
            simp [propagateF, hg]
          rw [hstep]
          obtain ⟨m', hr', hp'⟩ := propChild_pres f ih fl c m q hrest
          refine ⟨m', Reaches.step ?_ hr', hp'⟩
          simp only [childrenEntries] at hmem ⊢
          rcases List.mem_map.1 hmem with ⟨e, he, heq⟩
          have h1 : PathComp.idx e.1 = k := congrArg Prod.fst heq
          have h2 : e.2 = c := congrArg Prod.snd heq
          subst h1
          subst h2
          rw [List.enum_map, List.map_map]
          exact List.mem_map.2 ⟨e, he, rfl⟩

theorem getD_true_eq_false (o : Option Bool) : (o.getD true = false) ↔ o = some false := by
  cases o <;> simp

theorem flagsSafe_false_iff (fl : Flags) : flagsSafe fl = false ↔
    (fl.safe = some false ∨ fl.implicitSafe = some false ∨ fl.defaultSafe = false) := by
  rcases hs : fl.safe with _ | sb <;> rcases hi : fl.implicitSafe with _ | ib <;>
    rcases hd : fl.defaultSafe <;> (try cases sb) <;> (try cases ib) <;>
    simp [flagsSafe, hs, hi, hd]

/-- C3 (corrected): `delete` alone follows the explicit -> implicit ->
default precedence; `ayns.allow_new` never consults the node's own explicit
`_allow_new` (it reads only the implicit value, then the default), and
`ayns.safe` is a conjunction of the explicit, implicit and default sources
rather than a precedence chain; eager propagation leaves every reachable
node's explicit `delete`/`allow_new`/`safe` fields (and `_default_safe`)
unchanged and never overwrites an implicit `safe = False`. -/
theorem c3_flag_resolution_corrected :
    (∀ n : CNode, effDelete n
      = specResolve n.flags.delete n.flags.implicitDelete n.defaultDelete)
    ∧ (∀ (n : CNode) (b : Option Bool),
        effAllowNew (n.withFlags { n.flags with allowNew := b }) = effAllowNew n)
    ∧ (∀ n : CNode, effAllowNew n = specResolve none n.flags.implicitAllowNew true)
    ∧ (∀ n : CNode, effSafe n = false ↔
        (n.flags.safe = some false ∨ n.flags.implicitSafe = some false
          ∨ n.flags.defaultSafe = false))
    ∧ (∀ (f : Nat) (n : CNode) (p : List PathComp) (m : CNode), Reaches n p m →
        ∃ m', Reaches (propagateF f n) p m' ∧ FlagsPres m'.flags m.flags) := by
  refine ⟨?_, ?_, ?_, ?_, propagateF_reaches⟩
  · intro n
    cases hd : n.flags.delete <;> cases hi : n.flags.implicitDelete <;>
      simp [effDelete, specResolve, hd, hi]
  · intro n b
    simp [effAllowNew, withFlags_flags]
  · intro n
    rfl
  · intro n
    exact flagsSafe_false_iff n.flags

/-- C3 counterexample to the spec's uniform precedence: a node with explicit
`allow_new = False` and no implicit value resolves its effective `allow_new`
to the default `True` (the explicit field is ignored), where the spec's
explicit -> implicit -> default order would give `False`; and `safe` is a
conjunction: explicit `safe = True` over implicit `False` yields `False`,
not the explicit `True`. -/
theorem c3_flag_resolution_cex :
    effAllowNew (CNode.scalar 0 { allowNew := some false }) = true
    ∧ specResolve (some false) none true = false
    ∧ flagsSafe { safe := some true, implicitSafe := some false } = false
    ∧ specResolve (some true) (some false) true = true :=
  ⟨rfl, rfl, rfl, rfl⟩

theorem c3_flag_resolution_corrected_witness :
    effDelete (CNode.scalar 1 { delete := some false, implicitDelete := some true }) = false
    ∧ effAllowNew (CNode.scalar 1 { allowNew := some false }) = true
    ∧ (∃ m', Reaches (propagateF 1 (CNode.dict
          [(PathComp.str "a", CNode.scalar 2 { safe := some false })]
          { implicitDelete := some true })) [PathComp.str "a"] m'
        ∧ FlagsPres m'.flags (CNode.scalar 2 { safe := some false }).flags) :=
  ⟨(c3_flag_resolution_corrected.1 _).trans rfl,
   (c3_flag_resolution_corrected.2.1 (CNode.scalar 1 {}) (some false)).trans rfl,
   c3_flag_resolution_corrected.2.2.2.2 1 _ _ _
     (Reaches.step (by simp [childrenEntries]) (Reaches.refl _))⟩

/-! ### Theorems about the required-node gate (C5) -/

theorem cnode_sizeOf_pos (t : CNode) : 1 ≤ sizeOf t := by
  cases t <;> simp_arith

theorem sizeOf_child_lt (t : CNode) (k : PathComp) (c : CNode)
    (h : (k, c) ∈ childrenEntries t) : sizeOf c < sizeOf t := by
  cases t with
  | scalar v fl => simp [childrenEntries] at h
  | required fl => simp [childrenEntries] at h
  | dict ch fl =>
    simp only [childrenEntries] at h
    have h1 : sizeOf (k, c) < sizeOf ch := List.sizeOf_lt_of_mem h
    have h2 : sizeOf (k, c) = 1 + sizeOf k + sizeOf c := by simp_arith
    have h3 : sizeOf (CNode.dict ch fl) = 1 + sizeOf ch + sizeOf fl :=
      CNode.dict.sizeOf_spec ch fl
    omega
  | list ch fl =>
    simp only [childrenEntries] at h
    rcases List.mem_map.1 h with ⟨e, he, heq⟩
    have hc : c ∈ ch := by
      have h2 : e.2 = c := congrArg Prod.snd heq
      rw [← h2]
      exact List.getElem?_mem (List.mem_enum_iff_getElem?.1 he)
    have h1 : sizeOf c < sizeOf ch := List.sizeOf_lt_of_mem hc
    have h3 : sizeOf (CNode.list ch fl) = 1 + sizeOf ch + sizeOf fl :=
      CNode.list.sizeOf_spec ch fl
    omega

theorem reaches_leaf (c m : CNode) (q : List PathComp) (hc : c.isComposed = false)
    (h : Reaches c q m) : q = [] ∧ m = c := by
  cases h with
  | refl => exact ⟨rfl, rfl⟩
  | step hm2 _ =>
    cases c <;> simp_all [childrenEntries, CNode.isComposed]

theorem mem_nwp_true_iff (f : Nat) : ∀ (t : CNode) (pfx p : List PathComp) (m : CNode),
    sizeOf t ≤ f →
    ((p, m) ∈ nodesWithPathsF f pfx t true ↔ ∃ q, p = pfx ++ q ∧ Reaches t q m) := by
  induction f with
  | zero =>
    intro t pfx p m hs
    exact absurd hs (by have := cnode_sizeOf_pos t; omega)
  | succ f ih =>
    intro t pfx p m hs
    by_cases hc : t.isComposed = true
    · simp only [nodesWithPathsF, hc, if_true, List.mem_append, List.mem_flatMap,
        List.mem_singleton]
      constructor
      · rintro (hself | ⟨e, he, hin⟩)
        · have h1 : p = pfx := congrArg Prod.fst hself
          have h2 : m = t := congrArg Prod.snd hself
          exact ⟨[], by simp [h1], h2 ▸ Reaches.refl t⟩
        · by_cases hec : e.2.isComposed = true
          · rw [if_pos hec] at hin
            have hsc : sizeOf e.2 ≤ f := by
              have := sizeOf_child_lt t e.1 e.2 he
              omega
            obtain ⟨q, hpq, hr⟩ := (ih e.2 (pfx ++ [e.1]) p m hsc).1 hin
            refine ⟨e.1 :: q, by simp [hpq], Reaches.step he hr⟩
          · rw [if_neg hec] at hin
            simp only [List.mem_singleton] at hin
            have h1 : p = pfx ++ [e.1] := congrArg Prod.fst hin
            have h2 : m = e.2 := congrArg Prod.snd hin
            exact ⟨[e.1], h1, h2 ▸ Reaches.step he (Reaches.refl _)⟩
      · rintro ⟨q, hpq, hr⟩
        cases hr with
        | refl =>
          left
          simp [hpq]
        | step hmem hrest =>
          rename_i c k q'
          right
          refine ⟨(k, c), hmem, ?_⟩
          by_cases hec : c.isComposed = true
          · rw [if_pos hec]
            have hsc : sizeOf c ≤ f := by
              have := sizeOf_child_lt t k c hmem
              omega
            exact (ih c (pfx ++ [k]) p m hsc).2 ⟨q', by simp [hpq], hrest⟩
          · rw [if_neg hec]
            obtain ⟨hq0, hm0⟩ := reaches_leaf c m q'
                (by rcases hb : c.isComposed <;> simp_all) hrest
            simp [hpq, hq0, hm0]
    · have hc' : t.isComposed = false := by rcases hb : t.isComposed <;> simp_all
      simp only [nodesWithPathsF, hc', Bool.false_eq_true, if_false, if_true,
        List.mem_singleton]
      constructor
      · intro hself
        have h1 : p = pfx := congrArg Prod.fst hself
        have h2 : m = t := congrArg Prod.snd hself
        exact ⟨[], by simp [h1], h2 ▸ Reaches.refl t⟩
      · rintro ⟨q, hpq, hr⟩
        obtain ⟨hq0, hm0⟩ := reaches_leaf t m q hc' hr
        simp [hpq, hq0, hm0]

theorem mem_nwp_false_iff (f : Nat) (t : CNode) (p : List PathComp) (m : CNode)
    (hs : sizeOf t ≤ f) (hc : t.isComposed = true) :
    ((p, m) ∈ nodesWithPathsF f [] t false) ↔ (Reaches t p m ∧ p ≠ []) := by
  cases f with
  | zero => exact absurd hs (by have := cnode_sizeOf_pos t; omega)
  | succ f =>
    simp only [nodesWithPathsF, hc, if_true, Bool.false_eq_true, if_false,
      List.nil_append, List.mem_flatMap]
    constructor
    · rintro ⟨e, he, hin⟩
      by_cases hec : e.2.isComposed = true
      · rw [if_pos hec] at hin
        have hsc : sizeOf e.2 ≤ f := by
          have := sizeOf_child_lt t e.1 e.2 he
          omega
        obtain ⟨q, hpq, hr⟩ := (mem_nwp_true_iff f e.2 [e.1] p m hsc).1 hin
        refine ⟨hpq ▸ Reaches.step he hr, by simp [hpq]⟩
      · rw [if_neg hec] at hin
        simp only [List.mem_singleton] at hin
        have h1 : p = [e.1] := by simpa using congrArg Prod.fst hin
        have h2 : m = e.2 := congrArg Prod.snd hin
        exact ⟨h1 ▸ h2 ▸ Reaches.step he (Reaches.refl _), by simp [h1]⟩
    · rintro ⟨hr, hne⟩
      cases hr with
      | refl => exact absurd rfl hne
      | step hmem hrest =>
        rename_i c k q'
        refine ⟨(k, c), hmem, ?_⟩
        by_cases hec : c.isComposed = true
        · rw [if_pos hec]
          have hsc : sizeOf c ≤ f := by
            have := sizeOf_child_lt t k c hmem
            omega
          exact (mem_nwp_true_iff f c [k] _ m hsc).2 ⟨q', by simp, hrest⟩
        · rw [if_neg hec]
          obtain ⟨hq0, hm0⟩ := reaches_leaf c m q'
              (by rcases hb : c.isComposed <;> simp_all) hrest
          simp [hq0, hm0]

theorem mem_requiredPathsF_iff (f : Nat) (t : CNode) (p : List PathComp)
    (hs : sizeOf t ≤ f) (hc : t.isComposed = true) :
    p ∈ requiredPathsF f t ↔ (∃ fl, Reaches t p (.required fl)) ∧ p ≠ [] := by
  simp only [requiredPathsF, List.mem_filterMap]
  constructor
  · rintro ⟨e, he, hfe⟩
    cases hm : e.2 with
    | scalar v fl => rw [hm] at hfe; simp at hfe
    | dict ch fl => rw [hm] at hfe; simp at hfe
    | list ch fl => rw [hm] at hfe; simp at hfe
    | required fl =>
      rw [hm] at hfe
      have hpe : e.1 = p := by simpa using hfe
      have hmem : (p, CNode.required fl) ∈ nodesWithPathsF f [] t false := by
        rw [← hpe, ← hm]
        exact he
      obtain ⟨hr, hne⟩ := (mem_nwp_false_iff f t p (CNode.required fl) hs hc).1 hmem
      exact ⟨⟨fl, hr⟩, hne⟩
  · rintro ⟨⟨fl, hr⟩, hne⟩
    refine ⟨(p, CNode.required fl),
      (mem_nwp_false_iff f t p (CNode.required fl) hs hc).2 ⟨hr, hne⟩, rfl⟩

/-- C5: a truthy merged tree still containing required placeholders fails
`Config.__init__` BEFORE any evaluation with one error listing exactly
`check_missing`'s path list; and that list contains precisely the paths of
every `RequiredNode` reachable anywhere in the tree (all of them, not only
the first), given enough fuel for the traversal. -/
theorem c5_required_gate :
    (∀ (f : Nat) (t : CNode), t.truthy = true → requiredPathsF f t ≠ [] →
      configInitF f t = .error (requiredPathsF f t))
    ∧ (∀ (f : Nat) (t : CNode) (p : List PathComp), sizeOf t ≤ f → t.isComposed = true →
      (p ∈ requiredPathsF f t ↔ (∃ fl, Reaches t p (.required fl)) ∧ p ≠ [])) := by
  refine ⟨?_, fun f t p hs hc => mem_requiredPathsF_iff f t p hs hc⟩
  intro f t ht hne
  unfold configInitF
  rw [if_pos ht]
  cases hrp : requiredPathsF f t with
  | nil => exact absurd hrp hne
  | cons a l => rfl

theorem c5_required_gate_witness :
    configInitF 1000 (CNode.dict [(PathComp.str "a", CNode.required {}),
        (PathComp.str "b", CNode.dict [(PathComp.str "c", CNode.required {})] {})] {})
      = .error (requiredPathsF 1000 (CNode.dict [(PathComp.str "a", CNode.required {}),
        (PathComp.str "b", CNode.dict [(PathComp.str "c", CNode.required {})] {})] {}))
    ∧ ([PathComp.str "b", PathComp.str "c"] ∈ requiredPathsF 1000
          (CNode.dict [(PathComp.str "a", CNode.required {}),
            (PathComp.str "b", CNode.dict [(PathComp.str "c", CNode.required {})] {})] {}) ↔
        (∃ fl, Reaches (CNode.dict [(PathComp.str "a", CNode.required {}),
            (PathComp.str "b", CNode.dict [(PathComp.str "c", CNode.required {})] {})] {})
          [PathComp.str "b", PathComp.str "c"] (.required fl))
          ∧ [PathComp.str "b", PathComp.str "c"] ≠ []) :=
  ⟨c5_required_gate.1 1000 _ rfl (by decide),
   c5_required_gate.2 1000 _ _ (by decide) rfl⟩

/-! ### Theorems about the evaluation frame (C9) -/

theorem evalFold_halt (f root : Nat) (ras : Bool) (path : List PathComp) :
    ∀ (t : List (PathComp × Nat)) (r : ERes),
      t.foldl (fun (acc : DRes) e =>
        match acc with
        | .halt r => .halt r
        | .cont vs st1 =>
          match st1.arena.get e.2 with
          | none => .halt (.badRef e.2)
          | some cnf =>
            match evaluateNodeF f root e.2 cnf ras (path ++ [e.1]) st1 with
            | .ok v st2 => .cont (vs ++ [(e.1, v)]) st2
            | r => .halt r) (DRes.halt r) = DRes.halt r := by
  intro t
  induction t with
  | nil => intro r; rfl
  | cons e2 t2 iht2 => intro r; rw [List.foldl_cons]; exact iht2 r

theorem evalFold_arena (f root : Nat) (ras : Bool) (path : List PathComp)
    (ih : ∀ (nid2 : Nat) (nf2 : ANodeF) (path2 : List PathComp) (st1 : ESt)
      (v : PValue) (st2 : ESt),
      evaluateNodeF f root nid2 nf2 ras path2 st1 = .ok v st2 → st2.arena = st1.arena) :
    ∀ (ch : List (PathComp × Nat)) (vs : List (PathComp × PValue)) (st1 : ESt),
      (∀ (vs2 : List (PathComp × PValue)) (st2 : ESt),
        ch.foldl (fun (acc : DRes) e =>
            match acc with
            | .halt r => .halt r
            | .cont vs st1 =>
              match st1.arena.get e.2 with
              | none => .halt (.badRef e.2)
              | some cnf =>
                match evaluateNodeF f root e.2 cnf ras (path ++ [e.1]) st1 with
                | .ok v st2 => .cont (vs ++ [(e.1, v)]) st2
                | r => .halt r) (DRes.cont vs st1) = DRes.cont vs2 st2 →
          st2.arena = st1.arena)
      ∧ (∀ (r : ERes),
        ch.foldl (fun (acc : DRes) e =>
            match acc with
            | .halt r => .halt r
            | .cont vs st1 =>
              match st1.arena.get e.2 with
              | none => .halt (.badRef e.2)
              | some cnf =>
                match evaluateNodeF f root e.2 cnf ras (path ++ [e.1]) st1 with
                | .ok v st2 => .cont (vs ++ [(e.1, v)]) st2
                | r => .halt r) (DRes.cont vs st1) = DRes.halt r →
          ∀ (v : PValue) (st2 : ESt), r = ERes.ok v st2 → st2.arena = st1.arena) := by
  intro ch
  induction ch with
  | nil =>
    intro vs st1
    constructor
    · intro vs2 st2 h
      cases h
      rfl
    · intro r h
      exact absurd h (by simp)
  | cons e t iht =>
    intro vs st1
    have hhalt := evalFold_halt f root ras path t
    constructor
    · intro vs2 st2 h
      rw [List.foldl_cons] at h
      cases hget : st1.arena.get e.2 with
      | none =>
        simp only [hget] at h
        rw [hhalt] at h
        exact absurd h (by simp)
      | some cnf =>
        simp only [hget] at h
        cases hrec : evaluateNodeF f root e.2 cnf ras (path ++ [e.1]) st1 with
        | ok v2 stm =>
          simp only [hrec] at h
          have hstep : stm.arena = st1.arena := ih e.2 cnf (path ++ [e.1]) st1 v2 stm hrec
          have htail := (iht (vs ++ [(e.1, v2)]) stm).1 vs2 st2 h
          exact htail.trans hstep
        | errMissing tg chn =>
          simp only [hrec] at h
          rw [hhalt] at h
          exact absurd h (by simp)
        | errNotSafe p2 =>
          simp only [hrec] at h
          rw [hhalt] at h
          exact absurd h (by simp)
        | badRef n2 =>
          simp only [hrec] at h
          rw [hhalt] at h
          exact absurd h (by simp)
        | fuelOut =>
          simp only [hrec] at h
          rw [hhalt] at h
          exact absurd h (by simp)
    · intro r h
      rw [List.foldl_cons] at h
      cases hget : st1.arena.get e.2 with
      | none =>
        simp only [hget] at h
        rw [hhalt] at h
        cases h
        intro v st2 hcontra
        exact absurd hcontra (by simp)
      | some cnf =>
        simp only [hget] at h
        cases hrec : evaluateNodeF f root e.2 cnf ras (path ++ [e.1]) st1 with
        | ok v2 stm =>
          simp only [hrec] at h
          have hstep : stm.arena = st1.arena := ih e.2 cnf (path ++ [e.1]) st1 v2 stm hrec
          intro v st2 hr
          have htail := (iht (vs ++ [(e.1, v2)]) stm).2 r h v st2 hr
          exact htail.trans hstep
        | errMissing tg chn =>
          simp only [hrec] at h
          rw [hhalt] at h
          cases h
          intro v st2 hcontra
          exact absurd hcontra (by simp)
        | errNotSafe p2 =>
          simp only [hrec] at h
          rw [hhalt] at h
          cases h
          intro v st2 hcontra
          exact absurd hcontra (by simp)
        | badRef n2 =>
          simp only [hrec] at h
          rw [hhalt] at h
          cases h
          intro v st2 hcontra
          exact absurd hcontra (by simp)
        | fuelOut =>
          simp only [hrec] at h
          rw [hhalt] at h
          cases h
          intro v st2 hcontra
          exact absurd hcontra (by simp)

theorem evalNode_arena (f : Nat) : ∀ (root nid : Nat) (nf : ANodeF) (ras : Bool)
    (path : List PathComp) (st : ESt) (v : PValue) (st' : ESt),
    evaluateNodeF f root nid nf ras path st = .ok v st' → st'.arena = st.arena := by
  induction f with
  | zero =>
    intro root nid nf ras path st v st' h
    exact absurd h (by simp [evaluateNodeF])
  | succ f ih =>
    intro root nid nf ras path st v st' h
    simp only [evaluateNodeF] at h
    by_cases hsafe : (ras && !flagsSafe nf.flags) = true
    · rw [if_pos hsafe] at h
      exact absurd h (by simp)
    · rw [if_neg hsafe] at h
      cases hl : lookupPV st.cacheId nid with
      | some v0 =>
        simp only [hl] at h
        cases h
        rfl
      | none =>
        simp only [hl] at h
        cases nf with
        | scalar v2 fl =>
          cases h
          rfl
        | effect v2 fl =>
          cases h
          rfl
        | adict ch fl =>
          have hfold := evalFold_arena f root ras path
            (fun nid2 nf2 path2 st1 vv st2 hh => ih root nid2 nf2 ras path2 st1 vv st2 hh)
            ch [] st
          cases hfd : List.foldl (fun (acc : DRes) e =>
              match acc with
              | .halt r => .halt r
              | .cont vs st1 =>
                match st1.arena.get e.2 with
                | none => .halt (.badRef e.2)
                | some cnf =>
                  match evaluateNodeF f root e.2 cnf ras (path ++ [e.1]) st1 with
                  | .ok v st2 => .cont (vs ++ [(e.1, v)]) st2
                  | r => .halt r) (DRes.cont [] st) ch with
          | halt r =>
            simp only [hfd] at h
            cases r with
            | ok v2 st2 =>
              cases h
              exact hfold.2 _ hfd v st2 rfl
            | errMissing tg chn => exact ERes.noConfusion h
            | errNotSafe p2 => exact ERes.noConfusion h
            | badRef n2 => exact ERes.noConfusion h
            | fuelOut => exact ERes.noConfusion h
          | cont vs1 st1 =>
            simp only [hfd] at h
            cases h
            exact hfold.1 vs1 st1 hfd
        | axref t fl =>
          cases hx : xrefFollowF f st root nid (ANodeF.axref t fl) [joinPath path] with
          | fuelOut =>
            simp only [hx] at h
            exact ERes.noConfusion h
          | missing tg chain =>
            simp only [hx] at h
            exact ERes.noConfusion h
          | cachedVal v2 chain =>
            simp only [hx] at h
            cases h
            rfl
          | final tid tnf chain =>
            simp only [hx] at h
            cases hrec : evaluateNodeF f root tid tnf ras
                ((splitPath (chain.getLastD "")).getD []) st with
            | ok v2 st2 =>
              simp only [hrec] at h
              cases h
              exact ih root tid tnf ras _ st v st2 hrec
            | errMissing tg chn =>
              simp only [hrec] at h
              exact ERes.noConfusion h
            | errNotSafe p2 =>
              simp only [hrec] at h
              exact ERes.noConfusion h
            | badRef n2 =>
              simp only [hrec] at h
              exact ERes.noConfusion h
            | fuelOut =>
              simp only [hrec] at h
              exact ERes.noConfusion h

/-- C9: evaluation never mutates the node tree. Whenever `evaluate_node`
succeeds, the final state carries the same arena (node tree) as the initial
state — children, flags and metadata of every node are untouched; only the
memo tables and the hook log grow. Consequently an `evaluate` run leaves
the tree exactly as given, and re-evaluating from the tree it leaves
behind is the same as evaluating the original tree. -/
theorem c9_eval_frame :
    (∀ (f root nid : Nat) (nf : ANodeF) (ras : Bool) (path : List PathComp)
      (st : ESt) (v : PValue) (st' : ESt),
      evaluateNodeF f root nid nf ras path st = .ok v st' → st'.arena = st.arena)
    ∧ (∀ (f : Nat) (a : Arena) (root : Nat) (nf : ANodeF) (v : PValue) (st' : ESt),
      evaluateF f a root nf = .ok v st' →
        st'.arena = a ∧ evaluateF f st'.arena root nf = evaluateF f a root nf) := by
  refine ⟨fun f => evalNode_arena f, ?_⟩
  intro f a root nf v st' h
  have h1 : st'.arena = a := evalNode_arena f root root nf false [] ⟨a, [], [], []⟩ v st' h
  exact ⟨h1, by rw [h1]⟩

theorem c9_eval_frame_witness :
    evaluateNodeF 1 0 1 (ANodeF.scalar 5 {}) false [] ⟨⟨[]⟩, [], [], []⟩
      = .ok (.int 5) ⟨⟨[]⟩, [(joinPath [], .int 5)], [(1, .int 5)], []⟩
    ∧ (⟨⟨[]⟩, [(joinPath [], PValue.int 5)], [(1, PValue.int 5)], []⟩ : ESt).arena
      = (⟨⟨[]⟩, [], [], []⟩ : ESt).arena :=
  ⟨rfl, c9_eval_frame.1 1 0 1 (ANodeF.scalar 5 {}) false [] ⟨⟨[]⟩, [], [], []⟩
    (.int 5) ⟨⟨[]⟩, [(joinPath [], .int 5)], [(1, .int 5)], []⟩ rfl⟩

/-! ### Theorems about evaluation memoization (C4) -/

theorem cacheMono_refl (a : ESt) : CacheMono a a := fun _ h => h

theorem cacheMono_trans {a b c : ESt} (h1 : CacheMono a b) (h2 : CacheMono b c) :
    CacheMono a c := fun m hm => h2 m (h1 m hm)

theorem lookupPV_cons_isSome (l : List (Nat × PValue)) (k m : Nat) (v : PValue)
    (h : (lookupPV l m).isSome = true) : (lookupPV ((k, v) :: l) m).isSome = true := by
  by_cases hk : (k == m) = true <;>
    simp only [lookupPV, List.find?, hk] at h ⊢ <;> simp_all

theorem lookupPV_cons_self (l : List (Nat × PValue)) (k : Nat) (v : PValue) :
    lookupPV ((k, v) :: l) k = some v := by
  simp [lookupPV, List.find?]

theorem wf_store (st1 : ESt) (path : List PathComp) (nid : Nat) (v : PValue)
    (h : WfLog st1) :
    WfLog { st1 with
      cachePath := (joinPath path, v) :: st1.cachePath,
      cacheId := (nid, v) :: st1.cacheId } :=
  ⟨h.1, fun m hm => lookupPV_cons_isSome _ _ _ _ (h.2 m hm)⟩

theorem mono_store (st1 : ESt) (path : List PathComp) (nid : Nat) (v : PValue) :
    CacheMono st1 { st1 with
      cachePath := (joinPath path, v) :: st1.cachePath,
      cacheId := (nid, v) :: st1.cacheId } :=
  fun m hm => lookupPV_cons_isSome _ _ _ _ hm

theorem evalFold_wf (f root : Nat) (ras : Bool) (path : List PathComp)
    (ih : ∀ (nid2 : Nat) (nf2 : ANodeF) (path2 : List PathComp) (st1 : ESt)
      (v : PValue) (st2 : ESt),
      evaluateNodeF f root nid2 nf2 ras path2 st1 = .ok v st2 → WfLog st1 →
        WfLog st2 ∧ CacheMono st1 st2) :
    ∀ (ch : List (PathComp × Nat)) (vs : List (PathComp × PValue)) (st1 : ESt),
      (∀ (vs2 : List (PathComp × PValue)) (st2 : ESt),
        ch.foldl (fun (acc : DRes) e =>
            match acc with
            | .halt r => .halt r
            | .cont vs st1 =>
              match st1.arena.get e.2 with
              | none => .halt (.badRef e.2)
              | some cnf =>
                match evaluateNodeF f root e.2 cnf ras (path ++ [e.1]) st1 with
                | .ok v st2 => .cont (vs ++ [(e.1, v)]) st2
                | r => .halt r) (DRes.cont vs st1) = DRes.cont vs2 st2 →
          WfLog st1 → WfLog st2 ∧ CacheMono st1 st2)
      ∧ (∀ (r : ERes),
        ch.foldl (fun (acc : DRes) e =>
            match acc with
            | .halt r => .halt r
            | .cont vs st1 =>
              match st1.arena.get e.2 with
              | none => .halt (.badRef e.2)
              | some cnf =>
                match evaluateNodeF f root e.2 cnf ras (path ++ [e.1]) st1 with
                | .ok v st2 => .cont (vs ++ [(e.1, v)]) st2
                | r => .halt r) (DRes.cont vs st1) = DRes.halt r →
          ∀ (v : PValue) (st2 : ESt), r = ERes.ok v st2 → WfLog st1 →
            WfLog st2 ∧ CacheMono st1 st2) := by
  intro ch
  induction ch with
  | nil =>
    intro vs st1
    constructor
    · intro vs2 st2 h hw
      cases h
      exact ⟨hw, cacheMono_refl st1⟩
    · intro r h
      exact absurd h (by simp)
  | cons e t iht =>
    intro vs st1
    have hhalt := evalFold_halt f root ras path t
    constructor
    · intro vs2 st2 h hw
      rw [List.foldl_cons] at h
      cases hget : st1.arena.get e.2 with
      | none =>
        simp only [hget] at h
        rw [hhalt] at h
        exact absurd h (by simp)
      | some cnf =>
        simp only [hget] at h
        cases hrec : evaluateNodeF f root e.2 cnf ras (path ++ [e.1]) st1 with
        | ok v2 stm =>
          simp only [hrec] at h
          obtain ⟨hw2, hm2⟩ := ih e.2 cnf (path ++ [e.1]) st1 v2 stm hrec hw
          obtain ⟨hw3, hm3⟩ := (iht (vs ++ [(e.1, v2)]) stm).1 vs2 st2 h hw2
          exact ⟨hw3, cacheMono_trans hm2 hm3⟩
        | errMissing tg chn =>
          simp only [hrec] at h
          rw [hhalt] at h
          exact absurd h (by simp)
        | errNotSafe p2 =>
          simp only [hrec] at h
          rw [hhalt] at h
          exact absurd h (by simp)
        | badRef n2 =>
          simp only [hrec] at h
          rw [hhalt] at h
          exact absurd h (by simp)
        | fuelOut =>
          simp only [hrec] at h
          rw [hhalt] at h
          exact absurd h (by simp)
    · intro r h
      rw [List.foldl_cons] at h
      cases hget : st1.arena.get e.2 with
      | none =>
        simp only [hget] at h
        rw [hhalt] at h
        cases h
        intro v st2 hcontra
        exact absurd hcontra (by simp)
      | some cnf =>
        simp only [hget] at h
        cases hrec : evaluateNodeF f root e.2 cnf ras (path ++ [e.1]) st1 with
        | ok v2 stm =>
          simp only [hrec] at h
          intro v st2 hr hw
          obtain ⟨hw2, hm2⟩ := ih e.2 cnf (path ++ [e.1]) st1 v2 stm hrec hw
          obtain ⟨hw3, hm3⟩ := (iht (vs ++ [(e.1, v2)]) stm).2 r h v st2 hr hw2
          exact ⟨hw3, cacheMono_trans hm2 hm3⟩
        | errMissing tg chn =>
          simp only [hrec] at h
          rw [hhalt] at h
          cases h
          intro v st2 hcontra
          exact absurd hcontra (by simp)
        | errNotSafe p2 =>
          simp only [hrec] at h
          rw [hhalt] at h
          cases h
          intro v st2 hcontra
          exact absurd hcontra (by simp)
        | badRef n2 =>
          simp only [hrec] at h
          rw [hhalt] at h
          cases h
          intro v st2 hcontra
          exact absurd hcontra (by simp)
        | fuelOut =>
          simp only [hrec] at h
          rw [hhalt] at h
          cases h
          intro v st2 hcontra
          exact absurd hcontra (by simp)

theorem evalNode_wf (f : Nat) : ∀ (root nid : Nat) (nf : ANodeF) (ras : Bool)
    (path : List PathComp) (st : ESt) (v : PValue) (st' : ESt),
    evaluateNodeF f root nid nf ras path st = .ok v st' → WfLog st →
    WfLog st' ∧ CacheMono st st' := by
  induction f with
  | zero =>
    intro root nid nf ras path st v st' h hw
    exact absurd h (by simp [evaluateNodeF])
  | succ f ih =>
    intro root nid nf ras path st v st' h hw
    simp only [evaluateNodeF] at h
    by_cases hsafe : (ras && !flagsSafe nf.flags) = true
    · rw [if_pos hsafe] at h
      exact absurd h (by simp)
    · rw [if_neg hsafe] at h
      cases hl : lookupPV st.cacheId nid with
      | some v0 =>
        simp only [hl] at h
        cases h
        exact ⟨hw, cacheMono_refl st⟩
      | none =>
        simp only [hl] at h
        have hnidlog : nid ∉ st.log := by
          intro hmem
          have := hw.2 nid hmem
          rw [hl] at this
          simp at this
        cases nf with
        | scalar v2 fl =>
          cases h
          exact ⟨wf_store st path nid _ hw, mono_store st path nid _⟩
        | effect v2 fl =>
          cases h
          refine ⟨?_, ?_⟩
          · refine ⟨?_, ?_⟩
            · exact List.Nodup.append hw.1 (List.nodup_singleton nid)
                (fun a ha hb => by
                  simp only [List.mem_singleton] at hb
                  exact hnidlog (hb ▸ ha))
            · intro m hm
              simp only [List.mem_append, List.mem_singleton] at hm
              rcases hm with hm | hm
              · exact lookupPV_cons_isSome _ _ _ _ (hw.2 m hm)
              · rw [hm, lookupPV_cons_self]
                rfl
          · exact fun m hm => lookupPV_cons_isSome _ _ _ _ hm
        | adict ch fl =>
          have hfold := evalFold_wf f root ras path
            (fun nid2 nf2 path2 st1 vv st2 hh hww => ih root nid2 nf2 ras path2 st1 vv st2 hh hww)
            ch [] st
          cases hfd : List.foldl (fun (acc : DRes) e =>
              match acc with
              | .halt r => .halt r
              | .cont vs st1 =>
                match st1.arena.get e.2 with
                | none => .halt (.badRef e.2)
                | some cnf =>
                  match evaluateNodeF f root e.2 cnf ras (path ++ [e.1]) st1 with
                  | .ok v st2 => .cont (vs ++ [(e.1, v)]) st2
                  | r => .halt r) (DRes.cont [] st) ch with
          | halt r =>
            simp only [hfd] at h
            cases r with
            | ok v2 st2 =>
              cases h
              obtain ⟨hw2, hm2⟩ := hfold.2 _ hfd _ st2 rfl hw
              exact ⟨wf_store st2 path nid _ hw2,
                cacheMono_trans hm2 (mono_store st2 path nid _)⟩
            | errMissing tg chn => exact ERes.noConfusion h
            | errNotSafe p2 => exact ERes.noConfusion h
            | badRef n2 => exact ERes.noConfusion h
            | fuelOut => exact ERes.noConfusion h
          | cont vs1 st1 =>
            simp only [hfd] at h
            cases h
            obtain ⟨hw2, hm2⟩ := hfold.1 vs1 st1 hfd hw
            exact ⟨wf_store st1 path nid _ hw2,
              cacheMono_trans hm2 (mono_store st1 path nid _)⟩
        | axref t fl =>
          cases hx : xrefFollowF f st root nid (ANodeF.axref t fl) [joinPath path] with
          | fuelOut =>
            simp only [hx] at h
            exact ERes.noConfusion h
          | missing tg chain =>
            simp only [hx] at h
            exact ERes.noConfusion h
          | cachedVal v2 chain =>
            simp only [hx] at h
            cases h
            exact ⟨wf_store st path nid _ hw, mono_store st path nid _⟩
          | final tid tnf chain =>
            simp only [hx] at h
            cases hrec : evaluateNodeF f root tid tnf ras
                ((splitPath (chain.getLastD "")).getD []) st with
            | ok v2 st2 =>
              simp only [hrec] at h
              cases h
              obtain ⟨hw2, hm2⟩ := ih root tid tnf ras _ st _ st2 hrec hw
              exact ⟨wf_store st2 path nid _ hw2,
                cacheMono_trans hm2 (mono_store st2 path nid _)⟩
            | errMissing tg chn =>
              simp only [hrec] at h
              exact ERes.noConfusion h
            | errNotSafe p2 =>
              simp only [hrec] at h
              exact ERes.noConfusion h
            | badRef n2 =>
              simp only [hrec] at h
              exact ERes.noConfusion h
            | fuelOut =>
              simp only [hrec] at h
              exact ERes.noConfusion h

/-- C4: `_eval_cache_id` memoization. (1) A node whose id is already in the
identity cache returns the cached plain value immediately with the state
(including the hook log) unchanged — its evaluation logic is not re-run.
(2) Whenever evaluation succeeds from a well-formed state (no hook ran
twice, every logged node memoized), the final state is well-formed again —
so no node's custom hook ever runs twice. (3) Concretely, a diamond: a
dict whose two keys share one `effect` node evaluates both keys to the
effect's value while the hook log records the shared node exactly once. -/
theorem c4_eval_memoization :
    (∀ (f root nid : Nat) (nf : ANodeF) (ras : Bool) (path : List PathComp)
      (st : ESt) (v : PValue),
      (ras && !flagsSafe nf.flags) = false →
      lookupPV st.cacheId nid = some v →
      evaluateNodeF (f + 1) root nid nf ras path st = .ok v st)
    ∧ (∀ (f root nid : Nat) (nf : ANodeF) (ras : Bool) (path : List PathComp)
      (st : ESt) (v : PValue) (st' : ESt),
      evaluateNodeF f root nid nf ras path st = .ok v st' → WfLog st →
      WfLog st' ∧ CacheMono st st')
    ∧ (∃ st' : ESt,
      evaluateF 3 ⟨[(1, .adict [(.str "a", 2), (.str "b", 2)] {}), (2, .effect 7 {})]⟩ 1
          (.adict [(.str "a", 2), (.str "b", 2)] {})
        = .ok (.dict [(.str "a", .int 7), (.str "b", .int 7)]) st' ∧ st'.log = [2]) := by
  refine ⟨?_, fun f => evalNode_wf f, ⟨_, rfl, rfl⟩⟩
  intro f root nid nf ras path st v h1 h2
  simp only [evaluateNodeF, h1, h2, Bool.false_eq_true, if_false]

theorem c4_eval_memoization_witness :
    evaluateNodeF 1 0 5 (ANodeF.scalar 1 {}) false []
        ⟨⟨[]⟩, [], [(5, PValue.int 9)], []⟩
      = .ok (.int 9) ⟨⟨[]⟩, [], [(5, PValue.int 9)], []⟩
    ∧ WfLog ⟨⟨[]⟩, [], [], []⟩ :=
  ⟨c4_eval_memoization.1 0 0 5 (ANodeF.scalar 1 {}) false []
      ⟨⟨[]⟩, [], [(5, PValue.int 9)], []⟩ (.int 9) rfl rfl,
   List.nodup_nil, by simp⟩

/-! ### Theorems about cross-reference chains (C7) -/

theorem xref_cycle_loops : ∀ (f : Nat) (chain : List String),
    xrefFollowF f ⟨⟨[(0, ANodeF.adict [(PathComp.str "a", 1), (PathComp.str "b", 2)] {}),
        (1, ANodeF.axref "b" {}), (2, ANodeF.axref "a" {})]⟩, [], [], []⟩ 0 1
      (ANodeF.axref "b" {}) chain = XRes.fuelOut
    ∧ xrefFollowF f ⟨⟨[(0, ANodeF.adict [(PathComp.str "a", 1), (PathComp.str "b", 2)] {}),
        (1, ANodeF.axref "b" {}), (2, ANodeF.axref "a" {})]⟩, [], [], []⟩ 0 2
      (ANodeF.axref "a" {}) chain = XRes.fuelOut := by
  intro f
  induction f with
  | zero => intro chain; exact ⟨rfl, rfl⟩
  | succ f ih =>
    intro chain
    constructor
    · have hb : ctxGetNode ⟨⟨[(0, ANodeF.adict [(PathComp.str "a", 1), (PathComp.str "b", 2)] {}),
          (1, ANodeF.axref "b" {}), (2, ANodeF.axref "a" {})]⟩, [], [], []⟩ 0 "b"
          = some (.node 2 (ANodeF.axref "a" {})) := rfl
      simp only [xrefFollowF, hb]
      exact (ih (chain ++ ["b"])).2
    · have ha : ctxGetNode ⟨⟨[(0, ANodeF.adict [(PathComp.str "a", 1), (PathComp.str "b", 2)] {}),
          (1, ANodeF.axref "b" {}), (2, ANodeF.axref "a" {})]⟩, [], [], []⟩ 0 "a"
          = some (.node 1 (ANodeF.axref "b" {})) := rfl
      simp only [xrefFollowF, ha]
      exact (ih (chain ++ ["a"])).1

/-- C7 (corrected): following a reference chain whose target is missing
fails with the `ValueError` naming the missing target and the chain of
paths visited so far — both at the `while` loop itself and through
`evaluate_node` — but the loop has no cycle detection at all: on the
two-element cycle `a -> b -> a` it never terminates (every fuel bound is
exhausted), instead of failing with a descriptive cyclic-reference
error. -/
theorem c7_xref_chain_corrected :
    (∀ (f : Nat) (st : ESt) (root currId : Nat) (t : String) (fl : Flags)
      (chain : List String),
      ctxGetNode st root t = none →
      xrefFollowF (f + 1) st root currId (.axref t fl) chain = .missing t chain)
    ∧ (∀ (f root nid : Nat) (t : String) (fl : Flags) (ras : Bool)
      (path : List PathComp) (st : ESt),
      (ras && !flagsSafe (ANodeF.axref t fl).flags) = false →
      lookupPV st.cacheId nid = none →
      ctxGetNode st root t = none →
      evaluateNodeF (f + 2) root nid (.axref t fl) ras path st
        = .errMissing t [joinPath path])
    ∧ (∀ (f : Nat) (chain : List String),
      xrefFollowF f ⟨⟨[(0, ANodeF.adict [(PathComp.str "a", 1), (PathComp.str "b", 2)] {}),
          (1, ANodeF.axref "b" {}), (2, ANodeF.axref "a" {})]⟩, [], [], []⟩ 0 1
        (ANodeF.axref "b" {}) chain = XRes.fuelOut) := by
  refine ⟨?_, ?_, fun f chain => (xref_cycle_loops f chain).1⟩
  · intro f st root currId t fl chain h
    simp only [xrefFollowF, h]
  · intro f root nid t fl ras path st hras hl hctx
    have hm : xrefFollowF (f + 1) st root nid (.axref t fl) [joinPath path]
        = .missing t [joinPath path] := by
      simp only [xrefFollowF, hctx]
    simp only [evaluateNodeF, hras, Bool.false_eq_true, if_false, hl, hm]

theorem c7_xref_cycle_cex :
    ¬ ∃ f : Nat,
      xrefFollowF f ⟨⟨[(0, ANodeF.adict [(PathComp.str "a", 1), (PathComp.str "b", 2)] {}),
          (1, ANodeF.axref "b" {}), (2, ANodeF.axref "a" {})]⟩, [], [], []⟩ 0 1
        (ANodeF.axref "b" {}) ["a"] ≠ XRes.fuelOut := by
  rintro ⟨f, hne⟩
  exact hne (xref_cycle_loops f ["a"]).1

theorem c7_xref_chain_corrected_witness :
    xrefFollowF 1 ⟨⟨[]⟩, [], [], []⟩ 0 7 (ANodeF.axref "x" {}) ["r"]
      = .missing "x" ["r"]
    ∧ evaluateNodeF 2 0 7 (ANodeF.axref "x" {}) false [] ⟨⟨[]⟩, [], [], []⟩
      = .errMissing "x" [joinPath []]
    ∧ xrefFollowF 5 ⟨⟨[(0, ANodeF.adict [(PathComp.str "a", 1), (PathComp.str "b", 2)] {}),
        (1, ANodeF.axref "b" {}), (2, ANodeF.axref "a" {})]⟩, [], [], []⟩ 0 1
      (ANodeF.axref "b" {}) ["a"] = XRes.fuelOut :=
  ⟨c7_xref_chain_corrected.1 0 ⟨⟨[]⟩, [], [], []⟩ 0 7 "x" {} ["r"] rfl,
   c7_xref_chain_corrected.2.1 0 0 7 "x" {} false [] ⟨⟨[]⟩, [], [], []⟩ rfl rfl rfl,
   c7_xref_chain_corrected.2.2 5 ["a"]⟩

/-! ### Theorems about list index merging (C8) -/

/-- C8 (corrected): `ConfigList.ayns.on_merge_impl` — the hook dispatched
through `ConfigNode.ayns.merge -> on_merge` — does reject dict-style sparse
overrides whose int keys fall outside the list's valid indices, with one
`MergeError` naming exactly the offending keys; but the `nested_merge`
flow that `Builder.flatten` uses never calls this hook: there a missing
out-of-range int key is handed to `ConfigList.ayns.set_child`
(`_set(strict=False)`), which silently appends when the effective index
lands one past the end (and clamps otherwise) — no merge error is
raised. -/
theorem c8_list_merge_corrected :
    (∀ (f : Nat) (ch : List CNode) (fl : Flags)
      (och : List (PathComp × CNode)) (ofl : Flags) (pfx : List PathComp),
      (och.any (fun e => match e.1 with | .str _ => true | .idx _ => false)) = false →
      (och.filterMap (fun e =>
        match e.1 with
        | .idx v => if listIdxStrictOk ch.length v then none else some v
        | .str _ => none)).isEmpty = false →
      listOnMergeImpl f (.list ch fl) (.dict och ofl) pfx
        = .error (.invalidIndices pfx (och.filterMap (fun e =>
            match e.1 with
            | .idx v => if listIdxStrictOk ch.length v then none else some v
            | .str _ => none))))
    ∧ (∀ (f : Nat) (ch : List CNode) (kv v : Int) (pfx : List PathComp),
      listIdxStrictOk ch.length kv = false →
      (listEffIdx ch.length kv == ch.length) = true →
      nestedMergeF (f + 1) (.list ch {}) (.dict [(.idx kv, .scalar v {})] {}) pfx
        = .ok false (.list (ch ++ [.scalar v { implicitDelete := some true }]) {})) := by
  constructor
  · intro f ch fl och ofl pfx h1 h2
    simp only [listOnMergeImpl, h1, Bool.false_eq_true, if_false, h2, Bool.not_false,
      if_true]
  · intro f ch kv v pfx h1 h2
    have heff : effDelete (CNode.dict [(PathComp.idx kv, CNode.scalar v {})] {}) = false := rfl
    have hget : getChild (.list ch {}) (.idx kv) = none := by
      simp only [getChild, h1, Bool.false_eq_true, if_false]
    have hreq : requireAllNewF f (.scalar v {}) (pfx ++ [.idx kv]) none true = none := rfl
    have hset : setChild f (.list ch {}) (.idx kv) (.scalar v {})
        = some (.list (ch ++ [.scalar v { implicitDelete := some true }]) {}) := by
      simp only [setChild, applyParentKwargs, childKwargs, CNode.flags,
        CNode.defaultDelete, CNode.withFlags, propagateF_scalar, h2, if_true]
      rfl
    have htie : hasPriorityOver (.dict [(.idx kv, .scalar v {})] {})
        (.list (ch ++ [.scalar v { implicitDelete := some true }]) {}) true = true := rfl
    simp only [nestedMergeF, heff, Bool.false_eq_true, if_false, CNode.isComposed,
      Bool.not_true, childrenEntries, List.foldl_cons, List.foldl_nil, hget, hreq,
      hset, htie, if_true, CNode.flags, eq_self_iff_true]
    rfl

theorem c8_list_merge_cex :
    nestedMergeF 3 (.dict [(.str "foo", .list [.scalar 1 {}, .scalar 2 {}] {})] {})
        (.dict [(.str "foo", .dict [(.idx 10, .scalar 3 {})] {})] {}) []
      = .ok false (.dict [(.str "foo",
          .list [.scalar 1 {}, .scalar 2 {},
            .scalar 3 { implicitDelete := some true }] {})] {})
    ∧ nestedMergeF 3 (.dict [(.str "foo", .list [.scalar 1 {}, .scalar 2 {}] {})] {})
        (.dict [(.str "foo", .dict [(.idx (-5), .scalar 9 {})] {})] {}) []
      = .ok false (.dict [(.str "foo",
          .list [.scalar 9 { implicitDelete := some true }, .scalar 2 {}] {})] {}) :=
  ⟨rfl, rfl⟩

theorem c8_list_merge_corrected_witness :
    listOnMergeImpl 1 (.list [.scalar 1 {}] {})
        (.dict [(.idx 5, .scalar 2 {})] {}) [.str "foo"]
      = .error (.invalidIndices [.str "foo"] [5])
    ∧ nestedMergeF 2 (.list [.scalar 1 {}, .scalar 2 {}] {})
        (.dict [(.idx 10, .scalar 3 {})] {}) []
      = .ok false (.list [.scalar 1 {}, .scalar 2 {},
          .scalar 3 { implicitDelete := some true }] {}) :=
  ⟨c8_list_merge_corrected.1 1 [.scalar 1 {}] {}
      [(.idx 5, .scalar 2 {})] {} [.str "foo"] rfl rfl,
   c8_list_merge_corrected.2 1 [.scalar 1 {}, .scalar 2 {}] 10 3 [] rfl rfl⟩

end Awesomeyaml
